import Mathlib

/-! American Soundex, package `gonamedex` (`src/gonamedex.go`)

A shallow embedding of the Go package `gonamedex` and theorems about it.

Conventions of the embedding

* A Go `string` is the list of its bytes (`GoString`); a `rune` is a natural number.
  `for _, r := range s`, `[]rune(s)` and `utf8.RuneCountInString` decode UTF-8
  (`decodeRunes`), `string(r)` and `string([]rune)` encode it (`encodeRune`,
  `encodeRunes`); `s[1:]` and `s[:3]` slice bytes, as in Go.
* A Go function returning `(string, error)` returns a pair whose second
  component is `none` for a nil error.
* A run-time panic (index or slice out of range) is the result `none` of a
  function returning `Option`.
* `fmt.Println` in `Create` writes to standard output only; it is not part of
  the returned value and is left out.
-/

namespace Gonamedex

/-- A Go string, as its sequence of bytes. -/
abbrev GoString := List Nat

/-- A Go rune (Unicode code point). -/
abbrev Rune := Nat

/-- The rune `utf8.RuneError`, U+FFFD. -/
def RuneError : Rune := 0xFFFD

/-! ## Go standard library: `unicode/utf8` -/

/-- Go `utf8.EncodeRune` (also `string(r)`): the UTF-8 bytes of a rune; a
surrogate or a value above U+10FFFF is encoded as U+FFFD. -/
def encodeRune (r : Rune) : GoString :=
  if r < 0x80 then [r]
  else if r < 0x800 then [0xC0 + r / 64, 0x80 + r % 64]
  else if 0x10FFFF < r ∨ (0xD800 ≤ r ∧ r ≤ 0xDFFF) then [0xEF, 0xBF, 0xBD]
  else if r < 0x10000 then [0xE0 + r / 4096, 0x80 + r / 64 % 64, 0x80 + r % 64]
  else [0xF0 + r / 262144, 0x80 + r / 4096 % 64, 0x80 + r / 64 % 64, 0x80 + r % 64]

/-- The conversion `string(rs)` of a rune slice. -/
def encodeRunes : List Rune → GoString
  | [] => []
  | r :: rs => encodeRune r ++ encodeRunes rs

/-- A UTF-8 continuation byte, `0x80..0xBF`. -/
def isCont (b : Nat) : Bool := decide (0x80 ≤ b ∧ b ≤ 0xBF)

/-- Go `utf8.DecodeRuneInString`: the first rune of a string and its width in
bytes; an invalid or truncated sequence gives `(RuneError, 1)`, the empty
string `(RuneError, 0)`. -/
def decodeRune : GoString → Rune × Nat
  | [] => (RuneError, 0)
  | b0 :: rest =>
    if b0 < 0x80 then (b0, 1)
    else if 0xC2 ≤ b0 ∧ b0 ≤ 0xDF then
      match rest with
      | b1 :: _ =>
        if isCont b1 then ((b0 - 0xC0) * 64 + (b1 - 0x80), 2) else (RuneError, 1)
      | [] => (RuneError, 1)
    else if 0xE0 ≤ b0 ∧ b0 ≤ 0xEF then
      match rest with
      | b1 :: b2 :: _ =>
        if (if b0 = 0xE0 then 0xA0 else 0x80) ≤ b1 ∧ b1 ≤ (if b0 = 0xED then 0x9F else 0xBF)
            ∧ isCont b2 = true then
          ((b0 - 0xE0) * 4096 + (b1 - 0x80) * 64 + (b2 - 0x80), 3)
        else (RuneError, 1)
      | _ => (RuneError, 1)
    else if 0xF0 ≤ b0 ∧ b0 ≤ 0xF4 then
      match rest with
      | b1 :: b2 :: b3 :: _ =>
        if (if b0 = 0xF0 then 0x90 else 0x80) ≤ b1 ∧ b1 ≤ (if b0 = 0xF4 then 0x8F else 0xBF)
            ∧ isCont b2 = true ∧ isCont b3 = true then
          ((b0 - 0xF0) * 262144 + (b1 - 0x80) * 4096 + (b2 - 0x80) * 64 + (b3 - 0x80), 4)
        else (RuneError, 1)
      | _ => (RuneError, 1)
    else (RuneError, 1)

/-- The runes of a string, decoded one after the other; the first argument
bounds the number of runes and is the byte length in `decodeRunes`. -/
def decodeRunesAux : Nat → GoString → List Rune
  | 0, _ => []
  | n + 1, s =>
    match s with
    | [] => []
    | b :: rest =>
      (decodeRune (b :: rest)).1 :: decodeRunesAux n ((b :: rest).drop (decodeRune (b :: rest)).2)

/-- The conversion `[]rune(s)`, which is also the sequence of runes a
`for _, r := range s` loop visits. Every rune takes at least one byte, so
the byte length bounds the number of runes. -/
def decodeRunes (s : GoString) : List Rune := decodeRunesAux s.length s

/-- Go `utf8.RuneCountInString`. -/
def runeCountInString (s : GoString) : Nat := (decodeRunes s).length

/-- A string literal of the source as a Go string (its UTF-8 bytes). -/
def goString (s : String) : GoString := encodeRunes (s.toList.map Char.toNat)

/-! ## Go standard library: `unicode`, `strings`

`unicode.IsLetter` and `unicode.ToLower` decide code points up to U+00FF
(respectively U+007F) by fixed code and look the others up in the Unicode
range tables. Those tables are not part of the repository: they are the
parameter `UnicodeTables`. -/

/-- The Unicode range tables the standard library consults:
`letter r` for `isExcludingLatin(Letter, r)` (used above U+00FF) and
`lowerCase r` for `To(LowerCase, r)` (used above U+007F). -/
structure UnicodeTables where
  letter : Rune → Bool
  lowerCase : Rune → Rune

/-- The letters of Latin-1 (the `pLmask` entries of `unicode.properties`):
`A-Z`, `a-z`, U+00AA, U+00B5, U+00BA, U+00C0-U+00D6, U+00D8-U+00F6,
U+00F8-U+00FF. -/
def latin1Letter (r : Rune) : Bool :=
  decide ((0x41 ≤ r ∧ r ≤ 0x5A) ∨ (0x61 ≤ r ∧ r ≤ 0x7A) ∨ r = 0xAA ∨ r = 0xB5 ∨ r = 0xBA
    ∨ (0xC0 ≤ r ∧ r ≤ 0xD6) ∨ (0xD8 ≤ r ∧ r ≤ 0xF6) ∨ (0xF8 ≤ r ∧ r ≤ 0xFF))

/-- Go `unicode.IsLetter`. -/
def unicodeIsLetter (T : UnicodeTables) (r : Rune) : Bool :=
  if r ≤ 0xFF then latin1Letter r else T.letter r

/-- The ASCII lower-casing `c += 'a' - 'A'` for `'A' <= c <= 'Z'`. -/
def asciiToLower (c : Nat) : Nat := if 0x41 ≤ c ∧ c ≤ 0x5A then c + 32 else c

/-- Go `unicode.ToLower`. -/
def unicodeToLower (T : UnicodeTables) (r : Rune) : Rune :=
  if r ≤ 0x7F then asciiToLower r else T.lowerCase r

/-- Go `strings.ToLower`: an ASCII-only string is lower-cased byte by byte,
any other string is `strings.Map(unicode.ToLower, s)`. -/
def stringsToLower (T : UnicodeTables) (s : GoString) : GoString :=
  if s.all (fun c => decide (c < 0x80)) then s.map asciiToLower
  else encodeRunes ((decodeRunes s).map (unicodeToLower T))

/-- Go `strings.Join(elems, "")`. -/
def stringsJoin : List GoString → GoString
  | [] => []
  | e :: es => e ++ stringsJoin es

/-- Go `strings.Replace(s, "?", "", -1)`: every byte `'?'` is removed. -/
def removeQuestionMarks (s : GoString) : GoString := s.filter (fun b => decide (b ≠ 0x3F))

/-! ## The package -/

/-- The two errors `makeLower` creates with `errors.New`. -/
inductive GoError where
  /-- The error `string must not be empty, ""`. -/
  | emptyString
  /-- The error `the entered string contain nonalpha charactors`. -/
  | nonAlpha
  deriving DecidableEq, Repr

/-- Source: `letterToDrop = []string{"a", "e", "i", "o", "u", "y", "h", "w"}` -/
def letterToDrop : List GoString :=
  [goString "a", goString "e", goString "i", goString "o", goString "u", goString "y",
   goString "h", goString "w"]

/-- Source: `letterToReplace1 = []string{"b", "f", "p", "v"}` -/
def letterToReplace1 : List GoString := [goString "b", goString "f", goString "p", goString "v"]

/-- Source: `letterToReplace2 = []string{"c", "g", "j", "k", "q", "s", "x", "z"}` -/
def letterToReplace2 : List GoString :=
  [goString "c", goString "g", goString "j", goString "k", goString "q", goString "s",
   goString "x", goString "z"]

/-- Source: `letterToReplace3 = []string{"d", "t"}` -/
def letterToReplace3 : List GoString := [goString "d", goString "t"]

/-- Source: `letterToReplace4 = []string{"l"}` -/
def letterToReplace4 : List GoString := [goString "l"]

/-- Source: `letterToReplace5 = []string{"m", "n"}` -/
def letterToReplace5 : List GoString := [goString "m", goString "n"]

/-- Source: `letterToReplace6 = []string{"r"}` -/
def letterToReplace6 : List GoString := [goString "r"]

/-- Source: `contains` checks to see if a letter is contained within a string slice. -/
def contains : List GoString → GoString → Bool
  | [], _ => false
  | r :: rest, letter => if letter = r then true else contains rest letter

/-- Source: `makeLower`. The error for an empty string, the error for a string with a
rune that is not a letter (both with the placeholder result `"error"`),
otherwise the lower-cased string. -/
def makeLower (T : UnicodeTables) (name : GoString) : GoString × Option GoError :=
  if name = [] then (goString "error", some GoError.emptyString)
  else if (decodeRunes name).any (fun letter => !unicodeIsLetter T letter) then
    (goString "error", some GoError.nonAlpha)
  else (stringsToLower T name, none)

/-- The body of the second loop of `convertToNumber`: the string appended to
`soundex` for one rune. -/
def convertLetter (letter : Rune) : GoString :=
  if contains letterToReplace1 (encodeRune letter) then goString "1"
  else if contains letterToReplace2 (encodeRune letter) then goString "2"
  else if contains letterToReplace3 (encodeRune letter) then goString "3"
  else if contains letterToReplace4 (encodeRune letter) then goString "4"
  else if contains letterToReplace5 (encodeRune letter) then goString "5"
  else if contains letterToReplace6 (encodeRune letter) then goString "6"
  else encodeRune letter

/-- Source: `convertToNumber`. The slice `soundex` starts as `count` empty strings, gets one
string appended per rune, and is joined. -/
def convertToNumber (name : GoString) : GoString × Option GoError :=
  let count := (decodeRunes name).length
  let soundex : List GoString := List.replicate count []
  let soundex := (decodeRunes name).foldl (fun acc letter => acc ++ [convertLetter letter]) soundex
  (stringsJoin soundex, none)

/-- The assignment `rName[i] = v`, which panics when `i` is out of range. -/
def assignAt (rName : List Rune) (i : Nat) (v : Rune) : Option (List Rune) :=
  if i < rName.length then some (rName.set i v) else none

/-- The loop `for i, letter := range rName[1:]` of `removeDup`, from
iteration `i` on with `k` iterations left; `letter` is `rName[i+1]`. -/
def removeDupLoop : Nat → Nat → List Rune → Rune → Option (List Rune)
  | 0, _, rName, _ => some rName
  | k + 1, i, rName, lastLetter =>
    match rName[i + 1]? with
    | none => none
    | some letter =>
      if letter = lastLetter then
        match assignAt rName i 0x3F with
        | none => none
        | some rName1 => removeDupLoop k (i + 1) rName1 letter
      else if (letter = 0x68 ∨ letter = 0x77) ∧ i + 2 < rName.length then
        match rName[i]?, rName[i + 2]? with
        | some a, some b =>
          if a = b then
            match assignAt rName i 0x3F with
            | none => none
            | some rName1 => removeDupLoop k (i + 1) rName1 letter
          else removeDupLoop k (i + 1) rName lastLetter
        | _, _ => none
      else removeDupLoop k (i + 1) rName letter

/-- Source: `removeDup`. It panics on the empty string (`rName[0]`). -/
def removeDup (name : GoString) : Option (GoString × Option GoError) :=
  match decodeRunes name with
  | [] => none
  | lastLetter :: rest =>
    match removeDupLoop rest.length 0 (lastLetter :: rest) lastLetter with
    | none => none
    | some rName => some (removeQuestionMarks (encodeRunes rName), none)

/-- Source: `removeFirstNumber`, which is `name[1:]`, a byte slice; it panics on the empty string. -/
def removeFirstNumber (name : GoString) : Option (GoString × Option GoError) :=
  match name with
  | [] => none
  | _ :: rest => some (rest, none)

/-- Source: `removeDroppedLetters`. -/
def removeDroppedLetters (name : GoString) : GoString × Option GoError :=
  let newName : List GoString :=
    (decodeRunes name).foldl
      (fun acc letter =>
        if contains letterToDrop (encodeRune letter) then acc ++ [goString "?"]
        else acc ++ [encodeRune letter])
      []
  (removeQuestionMarks (stringsJoin newName), none)

/-- The loop `for len(rName) < 3 { rName = append(rName, '0') }` of
`stripPad`, with at most `k` iterations. -/
def padLoop : Nat → List Rune → List Rune
  | 0, rName => rName
  | k + 1, rName => if rName.length < 3 then padLoop k (rName ++ [0x30]) else rName

/-- Source: `stripPad`. The slice `name[:3]` is a byte slice and panics when `name` has fewer
than 3 bytes. The padding loop runs at most 3 times. -/
def stripPad (name : GoString) : Option (GoString × Option GoError) :=
  if runeCountInString name = 0 then some (goString "000", none)
  else if runeCountInString name > 3 then
    (if 3 ≤ name.length then some (name.take 3, none) else none)
  else if runeCountInString name < 3 then
    some (encodeRunes (padLoop 3 (decodeRunes name)), none)
  else some (name, none)

/-- Source: `Create`. It panics on the empty string (`rInitial[0]`); the error of
`makeLower` is printed and dropped, the errors of the later stages are
discarded, and the returned error is always nil. -/
def Create (T : UnicodeTables) (name : GoString) : Option (GoString × Option GoError) :=
  match decodeRunes name with
  | [] => none
  | rInit :: _ =>
    let soundex := (makeLower T name).1
    let soundex := (convertToNumber soundex).1
    match removeDup soundex with
    | none => none
    | some (soundex, _) =>
      match removeFirstNumber soundex with
      | none => none
      | some (soundex, _) =>
        let soundex := (removeDroppedLetters soundex).1
        match stripPad soundex with
        | none => none
        | some (soundex, _) => some (encodeRune rInit ++ soundex, none)

/-! ## Auxiliary definitions for the proofs -/

/-- The marks the loop of `removeDup` leaves on the part of `rName` it has
not passed yet, as a recursion on that part: `x` is `rName[i]`, `y` is
`letter = rName[i+1]`, and `rest` starts at `rName[i+2]`. -/
def markFrom (lastLetter : Rune) : List Rune → List Rune
  | x :: y :: rest =>
    if y = lastLetter then 0x3F :: markFrom y (y :: rest)
    else if (y = 0x68 ∨ y = 0x77) ∧ rest ≠ [] then
      if some x = rest.head? then 0x3F :: markFrom y (y :: rest)
      else x :: markFrom lastLetter (y :: rest)
    else x :: markFrom y (y :: rest)
  | l => l

/-- The output of `removeDup` on a rune sequence without `'?'`: `markFrom`
with the marked entries left out. -/
def keepFrom (lastLetter : Rune) : List Rune → List Rune
  | x :: y :: rest =>
    if y = lastLetter then keepFrom y (y :: rest)
    else if (y = 0x68 ∨ y = 0x77) ∧ rest ≠ [] then
      if some x = rest.head? then keepFrom y (y :: rest)
      else x :: keepFrom lastLetter (y :: rest)
    else x :: keepFrom y (y :: rest)
  | l => l

/-- The bytes of the drop letters `a e i o u y h w`. -/
def dropBytes : List Nat := [97, 101, 105, 111, 117, 121, 104, 119]

/-- The byte `convertToNumber` writes for an ASCII byte. -/
def classByte (b : Nat) : Nat :=
  if b ∈ [98, 102, 112, 118] then 49
  else if b ∈ [99, 103, 106, 107, 113, 115, 120, 122] then 50
  else if b ∈ [100, 116] then 51
  else if b ∈ [108] then 52
  else if b ∈ [109, 110] then 53
  else if b ∈ [114] then 54
  else b

/-- An ASCII letter, `A-Z` or `a-z`. -/
def IsAsciiLetter (b : Nat) : Prop := (0x41 ≤ b ∧ b ≤ 0x5A) ∨ (0x61 ≤ b ∧ b ≤ 0x7A)

instance (b : Nat) : Decidable (IsAsciiLetter b) := by unfold IsAsciiLetter; infer_instance

/-- A decimal digit, `'0'..'9'`. -/
def IsDigitByte (b : Nat) : Prop := 0x30 ≤ b ∧ b ≤ 0x39

instance (b : Nat) : Decidable (IsDigitByte b) := by unfold IsDigitByte; infer_instance

/-- The three digits of the code of a lower-cased ASCII name, read off the
stages of `Create`. -/
def soundexDigits (low : GoString) : GoString :=
  (((keepFrom (classByte (low.headD 0)) (low.map classByte)).tail.filter
      (fun b => decide (b ∉ dropBytes))) ++ [0x30, 0x30, 0x30]).take 3

/-- The classifier's output alphabet: a digit `'1'..'6'` or a drop letter. -/
def IsClassified (b : Nat) : Prop := (0x31 ≤ b ∧ b ≤ 0x36) ∨ b ∈ dropBytes

instance (b : Nat) : Decidable (IsClassified b) := by unfold IsClassified; infer_instance

/-- No two adjacent characters are the same decimal digit. -/
def NoAdjacentEqualDigits (s : GoString) : Prop :=
  List.Chain' (fun a b => IsDigitByte a → a ≠ b) s

/-- Range tables for evaluating names whose letters lie in Latin-1 and whose
non-ASCII letters are already lower case: no letter above U+00FF is looked
up, and `To(LowerCase, r)` is `r` for a rune that is already lower case
(such as U+00F1). ASCII names never consult the tables at all. -/
def lowerLatin1Tables : UnicodeTables := ⟨fun _ => false, fun r => r⟩

/-- A valid input name: non-empty, every rune a letter under
`unicode.IsLetter`. -/
def ValidName (T : UnicodeTables) (name : GoString) : Prop :=
  name ≠ [] ∧ ∀ r ∈ decodeRunes name, unicodeIsLetter T r = true

instance (T : UnicodeTables) (name : GoString) : Decidable (ValidName T name) := by
  unfold ValidName; infer_instance

/-- The format of a code for a name: exactly 4 characters, the first
character of the name followed by three decimal digits. -/
def WellFormedCode (name code : GoString) : Prop :=
  ∃ c d1 d2 d3, (decodeRunes name).head? = some c ∧ decodeRunes code = [c, d1, d2, d3]
    ∧ IsDigitByte d1 ∧ IsDigitByte d2 ∧ IsDigitByte d3

/-- The seven class tables of the source, Drop first, then classes 1 to 6. -/
def classTables : List (List GoString) :=
  [letterToDrop, letterToReplace1, letterToReplace2, letterToReplace3, letterToReplace4,
   letterToReplace5, letterToReplace6]

/-- The class table as the specification gives it (section 4.2): the Drop
class, then classes 1 to 6. -/
def specClassTable : List (List Char) :=
  [['a', 'e', 'i', 'o', 'u', 'y', 'h', 'w'],
   ['b', 'f', 'p', 'v'],
   ['c', 'g', 'j', 'k', 'q', 's', 'x', 'z'],
   ['d', 't'],
   ['l'],
   ['m', 'n'],
   ['r']]

/-- The 26 lower-case letters `a..z`, as runes. -/
def lowerCaseLetters : List Rune := List.range' 0x61 26

/-- The rune that `string(r)` encodes: `r` itself, or U+FFFD when `r` is a
surrogate or lies above U+10FFFF. -/
def sanitizeRune (r : Nat) : Nat :=
  if 0x10FFFF < r ∨ (0xD800 ≤ r ∧ r ≤ 0xDFFF) then RuneError else r

/-- The rune `convertToNumber` writes for a rune, in the words of the
specification: `b f p v` become `1`, `c g j k q s x z` become `2`, `d t`
become `3`, `l` becomes `4`, `m n` become `5`, `r` becomes `6`, and every
other rune is copied unchanged. -/
def specConvertRune (r : Rune) : Rune :=
  if r ∈ ['b', 'f', 'p', 'v'].map Char.toNat then '1'.toNat
  else if r ∈ ['c', 'g', 'j', 'k', 'q', 's', 'x', 'z'].map Char.toNat then '2'.toNat
  else if r ∈ ['d', 't'].map Char.toNat then '3'.toNat
  else if r ∈ ['l'].map Char.toNat then '4'.toNat
  else if r ∈ ['m', 'n'].map Char.toNat then '5'.toNat
  else if r ∈ ['r'].map Char.toNat then '6'.toNat
  else r

/-- The ASCII upper-casing `c -= 'a' - 'A'` for `'a' <= c <= 'z'`, which is
`strings.ToUpper` on an ASCII string. -/
def asciiToUpper (c : Nat) : Nat := if 0x61 ≤ c ∧ c ≤ 0x7A then c - 32 else c

/-- The bytes of the vowels `a e i o u y`. -/
def vowelBytes : List Nat := [97, 101, 105, 111, 117, 121]

/-- Two letters, in either case, that the classifier does not tell apart for
the digits of a code: two letters of the same digit class `1..6`, or two
vowels from `a e i o u y`, or the same letter `h` or `w`. -/
def SamePhoneticClass (a b : Nat) : Prop :=
  ((0x31 ≤ classByte (asciiToLower a) ∧ classByte (asciiToLower a) ≤ 0x36)
      ∧ classByte (asciiToLower a) = classByte (asciiToLower b))
    ∨ (asciiToLower a ∈ vowelBytes ∧ asciiToLower b ∈ vowelBytes)
    ∨ ((asciiToLower a = 0x68 ∨ asciiToLower a = 0x77) ∧ asciiToLower a = asciiToLower b)

instance (a b : Nat) : Decidable (SamePhoneticClass a b) := by
  unfold SamePhoneticClass; infer_instance

/-- A class digit, `'1'..'6'`. -/
def IsClassDigit (u : Nat) : Prop := 0x31 ≤ u ∧ u ≤ 0x36

instance (u : Nat) : Decidable (IsClassDigit u) := by unfold IsClassDigit; infer_instance

/-- The letter `h` or `w`. -/
def IsHW (u : Nat) : Prop := u = 0x68 ∨ u = 0x77

instance (u : Nat) : Decidable (IsHW u) := by unfold IsHW; infer_instance

/-- The relation `SamePhoneticClass` on classified bytes: equal digits `1..6`,
or the same `h` or `w`, or two bytes that are neither. -/
def PhonRel (u v : Nat) : Prop :=
  (IsClassDigit u ∧ u = v) ∨ (IsHW u ∧ u = v)
    ∨ (¬ IsClassDigit u ∧ ¬ IsHW u ∧ ¬ IsClassDigit v ∧ ¬ IsHW v)

/-- The relation `PhonRel` on two optional bytes: both absent, or both present
and related. -/
def OptRel (zo1 zo2 : Option Nat) : Prop :=
  (zo1 = none ∧ zo2 = none) ∨ ∃ z1 z2, zo1 = some z1 ∧ zo2 = some z2 ∧ PhonRel z1 z2

/-- Whether one iteration of the loop of `removeDup` marks `x = rName[i]`,
with `a = lastLetter`, `y = rName[i+1]` and `zo` the entry `rName[i+2]`, if
there is one. -/
def isMarked (a x y : Nat) (zo : Option Nat) : Prop :=
  y = a ∨ (IsHW y ∧ some x = zo)

instance (a x y : Nat) (zo : Option Nat) : Decidable (isMarked a x y zo) := by
  unfold isMarked; infer_instance

/-- The value of `lastLetter` after that iteration. -/
def nextLast (a x y : Nat) (zo : Option Nat) : Nat :=
  if y = a then y
  else if IsHW y ∧ zo ≠ none then (if some x = zo then y else a)
  else y

/-! ## Lemmas -/

theorem decodeRune_width_pos (b : Nat) (rest : GoString) : 1 ≤ (decodeRune (b :: rest)).2 := by
  simp only [decodeRune]
  repeat' split
  all_goals simp

/-- The byte length is enough for `decodeRunesAux`: every larger bound decodes
the same runes, so `decodeRunes` never stops early. -/
theorem decodeRunesAux_fuel (n : Nat) :
    ∀ (m : Nat) (s : GoString), s.length ≤ n → s.length ≤ m →
      decodeRunesAux n s = decodeRunesAux m s := by
  induction n with
  | zero =>
    intro m s hn _
    have : s = [] := List.length_eq_zero.1 (Nat.le_zero.1 hn)
    subst this
    cases m <;> rfl
  | succ n ih =>
    intro m s hn hm
    cases s with
    | nil => cases m <;> rfl
    | cons b rest =>
      cases m with
      | zero => simp at hm
      | succ m =>
        have hw := decodeRune_width_pos b rest
        have hl : ((b :: rest).drop (decodeRune (b :: rest)).2).length ≤ rest.length := by
          rw [List.length_drop, List.length_cons]; omega
        simp only [decodeRunesAux]
        rw [ih m _ (by simp at hn; omega) (by simp at hm; omega)]

theorem decodeRunesAux_ascii (s : GoString) (h : ∀ b ∈ s, b < 0x80) :
    ∀ n, s.length ≤ n → decodeRunesAux n s = s := by
  induction s with
  | nil => intro n _; cases n <;> rfl
  | cons b rest ih =>
    intro n hn
    cases n with
    | zero => simp at hn
    | succ n =>
      have hb : b < 0x80 := h b (List.mem_cons_self _ _)
      have hd : decodeRune (b :: rest) = (b, 1) := by simp [decodeRune, hb]
      simp only [decodeRunesAux, hd, List.drop_succ_cons, List.drop_zero]
      rw [ih (fun c hc => h c (List.mem_cons_of_mem _ hc)) n (by simpa using hn)]

theorem decodeRunes_ascii (s : GoString) (h : ∀ b ∈ s, b < 0x80) : decodeRunes s = s :=
  decodeRunesAux_ascii s h _ (Nat.le_refl _)

theorem encodeRune_ascii (r : Rune) (h : r < 0x80) : encodeRune r = [r] := by
  simp [encodeRune, h]

theorem encodeRunes_ascii (rs : List Rune) (h : ∀ r ∈ rs, r < 0x80) : encodeRunes rs = rs := by
  induction rs with
  | nil => rfl
  | cons r rest ih =>
    simp only [encodeRunes, encodeRune_ascii r (h r (List.mem_cons_self _ _)),
      ih (fun c hc => h c (List.mem_cons_of_mem _ hc))]
    rfl

theorem removeDupLoop_eq_markFrom (l : List Rune) :
    ∀ (pre : List Rune) (lastLetter : Rune),
      removeDupLoop (l.length - 1) pre.length (pre ++ l) lastLetter
        = some (pre ++ markFrom lastLetter l) := by
  induction l with
  | nil => intro pre last; simp [removeDupLoop, markFrom]
  | cons x l ih =>
    intro pre last
    cases l with
    | nil => simp [removeDupLoop, markFrom]
    | cons y rest =>
      have hy : (pre ++ x :: y :: rest)[pre.length + 1]? = some y := by
        rw [List.getElem?_append_right (by omega)]; simp
      have hx : (pre ++ x :: y :: rest)[pre.length]? = some x := by
        rw [List.getElem?_append_right (by omega)]; simp
      have hz : (pre ++ x :: y :: rest)[pre.length + 2]? = rest.head? := by
        rw [List.getElem?_append_right (by omega)]
        cases rest <;> simp
      have hset : assignAt (pre ++ x :: y :: rest) pre.length 0x3F
          = some (pre ++ 0x3F :: y :: rest) := by
        simp [assignAt]
      have hlen : pre.length + 2 < (pre ++ x :: y :: rest).length ↔ rest ≠ [] := by
        cases rest <;> simp
      have ih1 : ∀ last, removeDupLoop rest.length (pre.length + 1) (pre ++ 0x3F :: y :: rest) last
          = some (pre ++ 0x3F :: markFrom last (y :: rest)) := by
        intro last
        have h := ih (pre ++ [0x3F]) last
        rw [List.length_append, List.append_assoc, List.append_assoc] at h
        exact h
      have ih2 : ∀ last, removeDupLoop rest.length (pre.length + 1) (pre ++ x :: y :: rest) last
          = some (pre ++ x :: markFrom last (y :: rest)) := by
        intro last
        have h := ih (pre ++ [x]) last
        rw [List.length_append, List.append_assoc, List.append_assoc] at h
        exact h
      simp only [List.length_cons, Nat.add_sub_cancel]
      rw [removeDupLoop, hy]
      simp only [hset, hlen, hx, hz]
      by_cases h1 : y = last
      · rw [if_pos h1, markFrom, if_pos h1]; exact ih1 y
      · rw [if_neg h1, markFrom, if_neg h1]
        by_cases h2 : (y = 0x68 ∨ y = 0x77) ∧ rest ≠ []
        · rw [if_pos h2, if_pos h2]
          obtain ⟨_, hne⟩ := h2
          cases rest with
          | nil => exact absurd rfl hne
          | cons z rest2 =>
            simp only [List.head?_cons]
            by_cases h3 : x = z
            · have h3' : some x = some z := by rw [h3]
              rw [if_pos h3, if_pos h3']; exact ih1 y
            · have h3' : ¬ some x = some z := by simpa using h3
              rw [if_neg h3, if_neg h3']
              exact ih2 last
        · rw [if_neg h2, if_neg h2]
          exact ih2 y

theorem markFrom_filter (l : List Rune) :
    ∀ lastLetter, (∀ b ∈ l, b ≠ 0x3F) →
      removeQuestionMarks (markFrom lastLetter l) = keepFrom lastLetter l := by
  induction l with
  | nil => intro _ _; rfl
  | cons x l ih =>
    intro last h
    cases l with
    | nil =>
      have hx : x ≠ 0x3F := h x (List.mem_cons_self _ _)
      simp [markFrom, keepFrom, removeQuestionMarks, hx]
    | cons y rest =>
      have hx : x ≠ 0x3F := h x (List.mem_cons_self _ _)
      have ih' := fun last => ih last (fun b hb => h b (List.mem_cons_of_mem _ hb))
      have e1 : ∀ t, removeQuestionMarks (0x3F :: t) = removeQuestionMarks t := by
        intro t; simp [removeQuestionMarks]
      have e2 : ∀ t, removeQuestionMarks (x :: t) = x :: removeQuestionMarks t := by
        intro t; simp [removeQuestionMarks, hx]
      rw [markFrom, keepFrom]
      split_ifs <;> simp only [e1, e2, ih']

theorem markFrom_ascii (l : List Rune) :
    ∀ lastLetter, (∀ b ∈ l, b < 0x80) → ∀ b ∈ markFrom lastLetter l, b < 0x80 := by
  induction l with
  | nil => intro _ _ b hb; simp [markFrom] at hb
  | cons x l ih =>
    intro last h
    cases l with
    | nil => simpa [markFrom] using h
    | cons y rest =>
      have hx : x < 0x80 := h x (List.mem_cons_self _ _)
      have ih' := fun last => ih last (fun b hb => h b (List.mem_cons_of_mem _ hb))
      rw [markFrom]
      split_ifs <;> intro b hb <;> rcases List.mem_cons.1 hb with rfl | hb
      all_goals first | exact ih' _ _ hb | exact hx | decide

theorem removeDup_ascii (x : Nat) (rest : GoString)
    (h : ∀ b ∈ x :: rest, b < 0x80) (hq : ∀ b ∈ x :: rest, b ≠ 0x3F) :
    removeDup (x :: rest) = some (keepFrom x (x :: rest), none) := by
  have hl := removeDupLoop_eq_markFrom (x :: rest) [] x
  simp only [List.length_cons, Nat.add_sub_cancel, List.length_nil, List.nil_append] at hl
  rw [removeDup, decodeRunes_ascii _ h]
  simp only [hl]
  rw [encodeRunes_ascii _ (markFrom_ascii _ _ h), markFrom_filter _ _ hq]

theorem keepFrom_sublist (l : List Rune) : ∀ lastLetter, (keepFrom lastLetter l).Sublist l := by
  induction l with
  | nil => intro _; simp [keepFrom]
  | cons x l ih =>
    intro last
    cases l with
    | nil => simp [keepFrom]
    | cons y rest =>
      rw [keepFrom]
      split_ifs
      · exact (ih _).cons _
      · exact (ih _).cons _
      · exact (ih _).cons₂ _
      · exact (ih _).cons₂ _

theorem keepFrom_ne_nil (l : List Rune) : ∀ lastLetter, l ≠ [] → keepFrom lastLetter l ≠ [] := by
  induction l with
  | nil => intro _ h; exact absurd rfl h
  | cons x l ih =>
    intro last _
    cases l with
    | nil => simp [keepFrom]
    | cons y rest =>
      rw [keepFrom]
      split_ifs
      · exact ih _ (List.cons_ne_nil _ _)
      · exact ih _ (List.cons_ne_nil _ _)
      · exact List.cons_ne_nil _ _
      · exact List.cons_ne_nil _ _

theorem sublist_tail_of_cons {α : Type} {l xs : List α} {x : α} (h : l.Sublist (x :: xs)) :
    l.tail.Sublist xs := by
  cases h with
  | cons _ h => exact (List.tail_sublist l).trans h
  | cons₂ _ h => exact h

theorem contains_singletons (l : List Nat) (b : Nat) :
    contains (l.map (fun c => [c])) [b] = decide (b ∈ l) := by
  induction l with
  | nil => simp [contains]
  | cons c l ih =>
    simp only [List.map_cons, contains, ih]
    by_cases h : b = c <;> simp [h]

theorem letterToDrop_eq : letterToDrop = dropBytes.map (fun c => [c]) := by decide
theorem letterToReplace1_eq : letterToReplace1 = [98, 102, 112, 118].map (fun c => [c]) := by
  decide
theorem letterToReplace2_eq :
    letterToReplace2 = [99, 103, 106, 107, 113, 115, 120, 122].map (fun c => [c]) := by decide
theorem letterToReplace3_eq : letterToReplace3 = [100, 116].map (fun c => [c]) := by decide
theorem letterToReplace4_eq : letterToReplace4 = [108].map (fun c => [c]) := by decide
theorem letterToReplace5_eq : letterToReplace5 = [109, 110].map (fun c => [c]) := by decide
theorem letterToReplace6_eq : letterToReplace6 = [114].map (fun c => [c]) := by decide

theorem convertLetter_ascii (b : Nat) (h : b < 0x80) : convertLetter b = [classByte b] := by
  have e1 : goString "1" = [49] := by decide
  have e2 : goString "2" = [50] := by decide
  have e3 : goString "3" = [51] := by decide
  have e4 : goString "4" = [52] := by decide
  have e5 : goString "5" = [53] := by decide
  have e6 : goString "6" = [54] := by decide
  simp only [convertLetter, classByte, encodeRune_ascii b h, letterToReplace1_eq,
    letterToReplace2_eq, letterToReplace3_eq, letterToReplace4_eq, letterToReplace5_eq,
    letterToReplace6_eq, contains_singletons, decide_eq_true_eq, e1, e2, e3, e4, e5, e6]
  split_ifs <;> rfl

theorem foldl_append_singleton {α β : Type} (f : α → β) (l : List α) :
    ∀ init : List β, l.foldl (fun acc a => acc ++ [f a]) init = init ++ l.map f := by
  induction l with
  | nil => intro init; simp
  | cons a l ih => intro init; simp [List.foldl_cons, ih]

theorem stringsJoin_replicate_nil (n : Nat) (l : List GoString) :
    stringsJoin (List.replicate n [] ++ l) = stringsJoin l := by
  induction n with
  | zero => simp
  | succ n ih => simpa [List.replicate_succ, stringsJoin] using ih

theorem stringsJoin_singletons (l : List Nat) : stringsJoin (l.map (fun c => [c])) = l := by
  induction l with
  | nil => rfl
  | cons c l ih => simp [stringsJoin, ih]

theorem convertToNumber_ascii (s : GoString) (h : ∀ b ∈ s, b < 0x80) :
    convertToNumber s = (s.map classByte, none) := by
  have hm : s.map convertLetter = (s.map classByte).map (fun c => [c]) := by
    rw [List.map_map]
    exact List.map_congr_left (fun b hb => convertLetter_ascii b (h b hb))
  simp only [convertToNumber, decodeRunes_ascii s h, foldl_append_singleton convertLetter,
    stringsJoin_replicate_nil, hm, stringsJoin_singletons]

theorem removeQuestionMarks_mark_drop (s : GoString) (hq : ∀ b ∈ s, b ≠ 0x3F) :
    removeQuestionMarks (s.map (fun a => if a ∈ dropBytes then 0x3F else a))
      = s.filter (fun b => decide (b ∉ dropBytes)) := by
  induction s with
  | nil => rfl
  | cons b s ih =>
    have hbq : b ≠ 0x3F := hq b (List.mem_cons_self _ _)
    have ih' := ih (fun c hc => hq c (List.mem_cons_of_mem _ hc))
    unfold removeQuestionMarks at ih' ⊢
    by_cases hd : b ∈ dropBytes
    · simp only [List.map_cons, hd, if_true, List.filter_cons, ih']
      simp
    · simp only [List.map_cons, hd, if_false, List.filter_cons, ih']
      simp [hbq]

theorem removeDroppedLetters_ascii (s : GoString) (h : ∀ b ∈ s, b < 0x80)
    (hq : ∀ b ∈ s, b ≠ 0x3F) :
    removeDroppedLetters s = (s.filter (fun b => decide (b ∉ dropBytes)), none) := by
  have e : goString "?" = [0x3F] := by decide
  have hf : ∀ (acc : List GoString) (letter : Rune),
      (if contains letterToDrop (encodeRune letter) = true then acc ++ [goString "?"]
        else acc ++ [encodeRune letter])
      = acc ++ [if contains letterToDrop (encodeRune letter) = true then goString "?"
          else encodeRune letter] := by
    intro acc letter; split_ifs <;> rfl
  have hm : s.map (fun letter => if contains letterToDrop (encodeRune letter) = true
        then goString "?" else encodeRune letter)
      = (s.map (fun a => if a ∈ dropBytes then 0x3F else a)).map (fun c => [c]) := by
    rw [List.map_map]
    apply List.map_congr_left
    intro b hb
    simp only [encodeRune_ascii b (h b hb), letterToDrop_eq, contains_singletons,
      decide_eq_true_eq, e, Function.comp]
    split_ifs <;> rfl
  simp only [removeDroppedLetters, decodeRunes_ascii s h, hf, foldl_append_singleton,
    List.nil_append, hm, stringsJoin_singletons, removeQuestionMarks_mark_drop s hq]

theorem padLoop_eq (rName : List Rune) (h : rName.length ≤ 3) :
    padLoop 3 rName = (rName ++ [0x30, 0x30, 0x30]).take 3 := by
  match rName, h with
  | [], _ => rfl
  | [_], _ => rfl
  | [_, _], _ => rfl
  | [_, _, _], _ => rfl
  | _ :: _ :: _ :: _ :: _, h => simp at h

theorem stripPad_ascii (s : GoString) (h : ∀ b ∈ s, b < 0x80) :
    stripPad s = some ((s ++ [0x30, 0x30, 0x30]).take 3, none) := by
  have e : goString "000" = [0x30, 0x30, 0x30] := by decide
  have hp : ∀ r ∈ padLoop 3 s, r < 0x80 := by
    intro r hr
    by_cases hl : s.length ≤ 3
    · rw [padLoop_eq s hl] at hr
      rcases List.mem_append.1 (List.mem_of_mem_take hr) with h1 | h1
      · exact h r h1
      · have h2 : r = 0x30 := by simpa using h1
        rw [h2]; decide
    · have : padLoop 3 s = s := by
        rw [padLoop, if_neg (by omega)]
      rw [this] at hr; exact h r hr
  simp only [stripPad, runeCountInString, decodeRunes_ascii s h, e, encodeRunes_ascii _ hp]
  match s with
  | [] => rfl
  | [a] => rfl
  | [a, b] => rfl
  | [a, b, c] => rfl
  | a :: b :: c :: d :: t => simp

theorem any_not_isLetter_ascii (T : UnicodeTables) (l : List Rune) (h : ∀ b ∈ l, b < 0x80) :
    l.any (fun letter => !unicodeIsLetter T letter) = l.any (fun letter => !latin1Letter letter) := by
  induction l with
  | nil => rfl
  | cons b l ih =>
    have hb' : b < 0x80 := h b (List.mem_cons_self _ _)
    have hb : b ≤ 0xFF := Nat.le_of_lt (Nat.lt_of_lt_of_le hb' (by decide))
    have e : unicodeIsLetter T b = latin1Letter b := by rw [unicodeIsLetter, if_pos hb]
    rw [List.any_cons, List.any_cons, ih (fun c hc => h c (List.mem_cons_of_mem _ hc)), e]

theorem makeLower_ascii (T : UnicodeTables) (name : GoString) (h : ∀ b ∈ name, b < 0x80) :
    makeLower T name =
      if name = [] then (goString "error", some GoError.emptyString)
      else if name.any (fun letter => !latin1Letter letter) then
        (goString "error", some GoError.nonAlpha)
      else (name.map asciiToLower, none) := by
  have ha : name.all (fun c => decide (c < 0x80)) = true := by
    simpa [List.all_eq_true] using h
  simp only [makeLower, decodeRunes_ascii name h, any_not_isLetter_ascii T name h,
    stringsToLower, ha, if_true]

theorem Create_ascii_tables (T T' : UnicodeTables) (name : GoString) (h : ∀ b ∈ name, b < 0x80) :
    Create T name = Create T' name := by
  simp only [Create, makeLower_ascii _ name h]

theorem makeLower_letters (T : UnicodeTables) (name : GoString) (hne : name ≠ [])
    (h : ∀ b ∈ name, IsAsciiLetter b) : makeLower T name = (name.map asciiToLower, none) := by
  have ha : ∀ b ∈ name, b < 0x80 := by
    intro b hb; have := h b hb; unfold IsAsciiLetter at this; omega
  have hl : name.any (fun letter => !latin1Letter letter) = false := by
    rw [List.any_eq_false]
    intro b hb
    have := h b hb
    unfold IsAsciiLetter at this
    have : latin1Letter b = true := by
      unfold latin1Letter; rw [decide_eq_true_eq]
      rcases this with h1 | h1
      · exact Or.inl h1
      · exact Or.inr (Or.inl h1)
    simp [this]
  rw [makeLower_ascii T name ha, if_neg hne, hl]
  rfl

theorem asciiToLower_letter (b : Nat) (h : IsAsciiLetter b) :
    0x61 ≤ asciiToLower b ∧ asciiToLower b ≤ 0x7A := by
  unfold IsAsciiLetter at h
  unfold asciiToLower
  split_ifs <;> omega

theorem classByte_lower : ∀ b, b < 123 → 97 ≤ b → IsClassified (classByte b) := by decide

theorem isClassified_bounds (b : Nat) (h : IsClassified b) : b < 0x80 ∧ b ≠ 0x3F := by
  unfold IsClassified dropBytes at h
  rcases h with h | h
  · omega
  · simp at h; omega

theorem digits_of_classified (conv : GoString) (d0 : Nat) (ds : GoString)
    (hc : conv = d0 :: ds) (h : ∀ b ∈ conv, IsClassified b) :
    ∃ k0 ks, removeDup conv = some (k0 :: ks, none)
      ∧ removeFirstNumber (k0 :: ks) = some (ks, none)
      ∧ removeDroppedLetters ks = (ks.filter (fun b => decide (b ∉ dropBytes)), none)
      ∧ stripPad (ks.filter (fun b => decide (b ∉ dropBytes)))
          = some (((ks.filter (fun b => decide (b ∉ dropBytes))) ++ [0x30, 0x30, 0x30]).take 3, none)
      ∧ k0 :: ks = keepFrom d0 conv := by
  subst hc
  have hk : ∀ b ∈ keepFrom d0 (d0 :: ds), IsClassified b :=
    fun b hb => h b ((keepFrom_sublist _ _).subset hb)
  cases hkeep : keepFrom d0 (d0 :: ds) with
  | nil => exact absurd hkeep (keepFrom_ne_nil _ _ (List.cons_ne_nil _ _))
  | cons k0 ks =>
    rw [hkeep] at hk
    have hks : ∀ b ∈ ks, IsClassified b := fun b hb => hk b (List.mem_cons_of_mem _ hb)
    refine ⟨k0, ks, ?_, rfl, ?_, ?_, rfl⟩
    · rw [removeDup_ascii d0 ds (fun b hb => (isClassified_bounds b (h b hb)).1)
        (fun b hb => (isClassified_bounds b (h b hb)).2), hkeep]
    · exact removeDroppedLetters_ascii ks (fun b hb => (isClassified_bounds b (hks b hb)).1)
        (fun b hb => (isClassified_bounds b (hks b hb)).2)
    · exact stripPad_ascii _
        (fun b hb => (isClassified_bounds b (hks b (List.mem_of_mem_filter hb))).1)

theorem Create_letters (T : UnicodeTables) (c : Nat) (rest : GoString)
    (h : ∀ b ∈ c :: rest, IsAsciiLetter b) :
    Create T (c :: rest) = some (c :: soundexDigits ((c :: rest).map asciiToLower), none) := by
  have ha : ∀ b ∈ c :: rest, b < 0x80 := by
    intro b hb; have := h b hb; unfold IsAsciiLetter at this; omega
  have hlow : ∀ b ∈ (c :: rest).map asciiToLower, 0x61 ≤ b ∧ b ≤ 0x7A := by
    intro b hb
    obtain ⟨a, ha', rfl⟩ := List.mem_map.1 hb
    exact asciiToLower_letter a (h a ha')
  have hlowa : ∀ b ∈ (c :: rest).map asciiToLower, b < 0x80 := by
    intro b hb; have := hlow b hb; omega
  have hconv : ∀ b ∈ ((c :: rest).map asciiToLower).map classByte, IsClassified b := by
    intro b hb
    obtain ⟨a, ha', rfl⟩ := List.mem_map.1 hb
    have := hlow a ha'
    exact classByte_lower a (by omega) (by omega)
  obtain ⟨k0, ks, h1, h2, h3, h4, h5⟩ :=
    digits_of_classified (((c :: rest).map asciiToLower).map classByte)
      (classByte (asciiToLower c)) ((rest.map asciiToLower).map classByte) rfl hconv
  simp only [Create, decodeRunes_ascii _ ha, makeLower_letters T _ (List.cons_ne_nil _ _) h,
    convertToNumber_ascii _ hlowa, h1, h2, h3, h4,
    encodeRune_ascii c (ha c (List.mem_cons_self _ _))]
  simp only [soundexDigits, List.map_cons, List.headD_cons] at h5 ⊢
  rw [← h5]
  rfl

theorem keepFrom_head_digit (l : List Nat) :
    ∀ (lastLetter d : Nat), IsDigitByte d →
      (∀ x, l.head? = some x → lastLetter = x ∨ x = 0x68 ∨ x = 0x77) →
      (keepFrom lastLetter l).head? = some d →
      l.head? = some d ∨
        ∃ x y rest, l = x :: y :: rest ∧ (x = 0x68 ∨ x = 0x77) ∧ y = d ∧ lastLetter = d := by
  induction l with
  | nil => intro last d _ _ h; simp [keepFrom] at h
  | cons x l ih =>
    intro last d hd hinv h
    cases l with
    | nil => left; simpa [keepFrom] using h
    | cons y rest =>
      have hdig : d ≠ 0x68 ∧ d ≠ 0x77 := by unfold IsDigitByte at hd; omega
      have hnext : (keepFrom y (y :: rest)).head? = some d → y = d := by
        intro h'
        rcases ih y d hd (fun z hz => Or.inl (by simpa using hz)) h' with h1 | ⟨a, b, r, h1, _, h3, h4⟩
        · simpa using h1
        · exact h4
      rw [keepFrom] at h
      split_ifs at h with h1 h2 h3
      · have hy := hnext h
        rcases hinv x rfl with hx | hx
        · left; rw [← hx, ← h1, hy]; rfl
        · right; exact ⟨x, y, rest, rfl, hx, hy, by rw [← h1, hy]⟩
      · have hy := hnext h
        rcases h2.1 with h4 | h4
        · exact absurd (hy.symm.trans h4) hdig.1
        · exact absurd (hy.symm.trans h4) hdig.2
      · left; simpa using h
      · left; simpa using h

theorem keepFrom_chain (l : List Nat) :
    ∀ lastLetter : Nat, (∀ x, l.head? = some x → lastLetter = x ∨ x = 0x68 ∨ x = 0x77) →
      NoAdjacentEqualDigits (keepFrom lastLetter l) := by
  unfold NoAdjacentEqualDigits
  induction l with
  | nil => intro _ _; simp [keepFrom]
  | cons x l ih =>
    intro last hinv
    cases l with
    | nil => simp [keepFrom]
    | cons y rest =>
      have ihy := ih y (fun z hz => Or.inl (by simpa using hz))
      rw [keepFrom]
      split_ifs with h1 h2 h3
      · exact ihy
      · exact ihy
      · have hinv' : ∀ z, (y :: rest).head? = some z → last = z ∨ z = 0x68 ∨ z = 0x77 := by
          intro z hz
          have : y = z := by simpa using hz
          rw [← this]; exact Or.inr h2.1
        rw [List.chain'_cons']
        refine ⟨?_, ih last hinv'⟩
        intro b hb hdx hxb
        have hb' : (keepFrom last (y :: rest)).head? = some x := by rw [hxb]; exact hb
        have hdig : x ≠ 0x68 ∧ x ≠ 0x77 := by unfold IsDigitByte at hdx; omega
        have hlast : last = x := by
          rcases hinv x rfl with h | h | h
          · exact h
          · exact absurd h hdig.1
          · exact absurd h hdig.2
        rcases keepFrom_head_digit (y :: rest) last x hdx hinv' hb' with h4 | ⟨a, b', r, h4, _, h6, _⟩
        · have : y = x := by simpa using h4
          rcases h2.1 with h5 | h5
          · exact hdig.1 (this.symm.trans h5)
          · exact hdig.2 (this.symm.trans h5)
        · have hr : rest = b' :: r := (List.cons.inj h4).2
          apply h3
          rw [hr, h6]; rfl
      · rw [List.chain'_cons']
        refine ⟨?_, ihy⟩
        intro b hb hdx hxb
        have hb' : (keepFrom y (y :: rest)).head? = some x := by rw [hxb]; exact hb
        have hdig : x ≠ 0x68 ∧ x ≠ 0x77 := by unfold IsDigitByte at hdx; omega
        have hlast : last = x := by
          rcases hinv x rfl with h | h | h
          · exact h
          · exact absurd h hdig.1
          · exact absurd h hdig.2
        rcases keepFrom_head_digit (y :: rest) y x hdx (fun z hz => Or.inl (by simpa using hz)) hb'
          with h4 | ⟨a, b', r, _, _, _, h7⟩
        · have : y = x := by simpa using h4
          exact h1 (this.trans hlast.symm)
        · exact h1 (h7.trans hlast.symm)

theorem take_three_padded (P : Nat → Prop) (f : List Nat) (hf : ∀ b ∈ f, P b) (h0 : P 0x30) :
    ∃ d1 d2 d3, (f ++ [0x30, 0x30, 0x30]).take 3 = [d1, d2, d3] ∧ P d1 ∧ P d2 ∧ P d3 := by
  match f, hf with
  | [], _ => exact ⟨_, _, _, rfl, h0, h0, h0⟩
  | [a], hf => exact ⟨_, _, _, rfl, hf a (by simp), h0, h0⟩
  | [a, b], hf => exact ⟨_, _, _, rfl, hf a (by simp), hf b (by simp), h0⟩
  | a :: b :: c :: t, hf =>
    exact ⟨a, b, c, by simp, hf a (by simp), hf b (by simp), hf c (by simp)⟩

theorem soundexDigits_format (low : GoString) (h : ∀ b ∈ low, 0x61 ≤ b ∧ b ≤ 0x7A) :
    ∃ d1 d2 d3, soundexDigits low = [d1, d2, d3]
      ∧ (0x30 ≤ d1 ∧ d1 ≤ 0x36) ∧ (0x30 ≤ d2 ∧ d2 ≤ 0x36) ∧ (0x30 ≤ d3 ∧ d3 ≤ 0x36) := by
  unfold soundexDigits
  apply take_three_padded (fun d => 0x30 ≤ d ∧ d ≤ 0x36)
  · intro b hb
    have hnd : b ∉ dropBytes := by simpa using (List.mem_filter.1 hb).2
    have hb1 := (keepFrom_sublist _ _).subset (List.mem_of_mem_tail (List.mem_of_mem_filter hb))
    obtain ⟨a, ha, rfl⟩ := List.mem_map.1 hb1
    have hc : IsClassified (classByte a) := classByte_lower a (by have := h a ha; omega) (h a ha).1
    rcases hc with hc | hc
    · omega
    · exact absurd hc hnd
  · decide

theorem classByte_drop : ∀ b ∈ dropBytes, classByte b = b := by decide

theorem soundexDigits_all_dropped (l0 : Nat) (lrest : GoString) (h : ∀ b ∈ lrest, b ∈ dropBytes) :
    soundexDigits (l0 :: lrest) = [0x30, 0x30, 0x30] := by
  have hm : lrest.map classByte = lrest := by
    conv_rhs => rw [← List.map_id lrest]
    exact List.map_congr_left (fun b hb => classByte_drop b (h b hb))
  have hs : (keepFrom (classByte l0) (classByte l0 :: lrest)).tail.Sublist lrest :=
    sublist_tail_of_cons (keepFrom_sublist _ _)
  have hf : (keepFrom (classByte l0) (classByte l0 :: lrest)).tail.filter
      (fun b => decide (b ∉ dropBytes)) = [] := by
    rw [List.filter_eq_nil_iff]
    intro b hb
    simpa using h b (hs.subset hb)
  simp only [soundexDigits, List.map_cons, List.headD_cons, hm, hf]
  rfl

theorem decodeRune_encodeRune (r : Nat) (rest : GoString) :
    decodeRune (encodeRune r ++ rest) = (sanitizeRune r, (encodeRune r).length) := by
  unfold encodeRune sanitizeRune RuneError
  by_cases h1 : r < 0x80
  · have h0 : ¬ (0x10FFFF < r ∨ (0xD800 ≤ r ∧ r ≤ 0xDFFF)) := by omega
    simp only [h1, if_true, h0, if_false, List.singleton_append, decodeRune, List.length_singleton]
  · by_cases h2 : r < 0x800
    · have h0 : ¬ (0x10FFFF < r ∨ (0xD800 ≤ r ∧ r ≤ 0xDFFF)) := by omega
      have c1 : ¬ (0xC0 + r / 64 < 0x80) := by omega
      have c2 : 0xC2 ≤ 0xC0 + r / 64 ∧ 0xC0 + r / 64 ≤ 0xDF := by omega
      have c3 : isCont (0x80 + r % 64) = true := by
        unfold isCont; rw [decide_eq_true_eq]; omega
      have c4 : (0xC0 + r / 64 - 0xC0) * 64 + (0x80 + r % 64 - 0x80) = r := by omega
      simp only [h1, h2, if_true, if_false, h0, List.cons_append, List.nil_append, decodeRune,
        c1, c2, and_self, c3, c4, List.length_cons, List.length_nil]
    · by_cases h3 : 0x10FFFF < r ∨ (0xD800 ≤ r ∧ r ≤ 0xDFFF)
      · simp only [h1, h2, h3, if_true, if_false]
        rfl
      · by_cases h4 : r < 0x10000
        · have c1 : ¬ (0xE0 + r / 4096 < 0x80) := by omega
          have c2 : ¬ (0xC2 ≤ 0xE0 + r / 4096 ∧ 0xE0 + r / 4096 ≤ 0xDF) := by omega
          have c3 : 0xE0 ≤ 0xE0 + r / 4096 ∧ 0xE0 + r / 4096 ≤ 0xEF := by omega
          have c4 : (if 0xE0 + r / 4096 = 0xE0 then 0xA0 else 0x80) ≤ 0x80 + r / 64 % 64
              ∧ 0x80 + r / 64 % 64 ≤ (if 0xE0 + r / 4096 = 0xED then 0x9F else 0xBF)
              ∧ isCont (0x80 + r % 64) = true := by
            refine ⟨?_, ?_, ?_⟩
            · split_ifs <;> omega
            · split_ifs <;> omega
            · unfold isCont; rw [decide_eq_true_eq]; omega
          have c5 : (0xE0 + r / 4096 - 0xE0) * 4096 + (0x80 + r / 64 % 64 - 0x80) * 64
              + (0x80 + r % 64 - 0x80) = r := by omega
          simp only [h1, h2, h3, h4, if_true, if_false, List.cons_append, List.nil_append,
            decodeRune, c1, c2, c3, and_self, c4, c5, List.length_cons, List.length_nil]
        · have c1 : ¬ (0xF0 + r / 262144 < 0x80) := by omega
          have c2 : ¬ (0xC2 ≤ 0xF0 + r / 262144 ∧ 0xF0 + r / 262144 ≤ 0xDF) := by omega
          have c3 : ¬ (0xE0 ≤ 0xF0 + r / 262144 ∧ 0xF0 + r / 262144 ≤ 0xEF) := by omega
          have c3' : 0xF0 ≤ 0xF0 + r / 262144 ∧ 0xF0 + r / 262144 ≤ 0xF4 := by omega
          have c4 : (if 0xF0 + r / 262144 = 0xF0 then 0x90 else 0x80) ≤ 0x80 + r / 4096 % 64
              ∧ 0x80 + r / 4096 % 64 ≤ (if 0xF0 + r / 262144 = 0xF4 then 0x8F else 0xBF)
              ∧ isCont (0x80 + r / 64 % 64) = true ∧ isCont (0x80 + r % 64) = true := by
            refine ⟨?_, ?_, ?_, ?_⟩
            · split_ifs <;> omega
            · split_ifs <;> omega
            · unfold isCont; rw [decide_eq_true_eq]; omega
            · unfold isCont; rw [decide_eq_true_eq]; omega
          have c5 : (0xF0 + r / 262144 - 0xF0) * 262144 + (0x80 + r / 4096 % 64 - 0x80) * 4096
              + (0x80 + r / 64 % 64 - 0x80) * 64 + (0x80 + r % 64 - 0x80) = r := by omega
          simp only [h1, h2, h3, h4, if_true, if_false, List.cons_append, List.nil_append,
            decodeRune, c1, c2, c3, c3', and_self, c4, c5, List.length_cons, List.length_nil]

theorem decodeRunes_cons (b : Nat) (rest : GoString) :
    decodeRunes (b :: rest) = (decodeRune (b :: rest)).1
      :: decodeRunes ((b :: rest).drop (decodeRune (b :: rest)).2) := by
  have hw := decodeRune_width_pos b rest
  unfold decodeRunes
  rw [List.length_cons, decodeRunesAux]
  congr 1
  apply decodeRunesAux_fuel
  · rw [List.length_drop, List.length_cons]; omega
  · exact Nat.le_refl _

theorem encodeRune_ne_nil (r : Nat) : encodeRune r ≠ [] := by
  unfold encodeRune; split_ifs <;> simp

theorem decodeRunes_encodeRune_append (r : Nat) (s : GoString) :
    decodeRunes (encodeRune r ++ s) = sanitizeRune r :: decodeRunes s := by
  cases h : encodeRune r with
  | nil => exact absurd h (encodeRune_ne_nil r)
  | cons b t =>
    have hd := decodeRune_encodeRune r s
    rw [h] at hd
    rw [List.cons_append, decodeRunes_cons, ← List.cons_append, hd]
    simp

theorem decodeRunes_encodeRunes (rs : List Nat) :
    decodeRunes (encodeRunes rs) = rs.map sanitizeRune := by
  induction rs with
  | nil => rfl
  | cons r rs ih => rw [encodeRunes, decodeRunes_encodeRune_append, ih, List.map_cons]

theorem encodeRunes_append (l1 l2 : List Nat) :
    encodeRunes (l1 ++ l2) = encodeRunes l1 ++ encodeRunes l2 := by
  induction l1 with
  | nil => rfl
  | cons r l1 ih => simp [encodeRunes, ih]

theorem decodeRune_valid (s : GoString) : sanitizeRune (decodeRune s).1 = (decodeRune s).1 := by
  simp only [decodeRune]
  repeat' split
  all_goals
    simp only [sanitizeRune, RuneError, isCont, decide_eq_true_eq] at *
    rw [if_neg]
    omega

theorem decodeRunes_valid (n : Nat) :
    ∀ s : GoString, s.length ≤ n → (decodeRunes s).map sanitizeRune = decodeRunes s := by
  induction n with
  | zero =>
    intro s hs
    have : s = [] := List.length_eq_zero.1 (Nat.le_zero.1 hs)
    subst this; rfl
  | succ n ih =>
    intro s hs
    cases s with
    | nil => rfl
    | cons b rest =>
      have hw := decodeRune_width_pos b rest
      rw [decodeRunes_cons, List.map_cons, decodeRune_valid, ih]
      rw [List.length_drop, List.length_cons]
      simp only [List.length_cons] at hs
      omega

theorem decodeRunes_length_le (n : Nat) :
    ∀ s : GoString, s.length ≤ n → (decodeRunes s).length ≤ s.length := by
  induction n with
  | zero =>
    intro s hs
    have : s = [] := List.length_eq_zero.1 (Nat.le_zero.1 hs)
    subst this; exact Nat.le_refl _
  | succ n ih =>
    intro s hs
    cases s with
    | nil => exact Nat.le_refl _
    | cons b rest =>
      have hw := decodeRune_width_pos b rest
      have hl : ((b :: rest).drop (decodeRune (b :: rest)).2).length ≤ rest.length := by
        rw [List.length_drop, List.length_cons]; omega
      have := ih _ (Nat.le_trans hl (by simpa using hs))
      rw [decodeRunes_cons, List.length_cons, List.length_cons]
      omega

theorem decodeRune_not_question (b : Nat) (rest : GoString) (hb : b ≠ 0x3F) :
    (decodeRune (b :: rest)).1 ≠ 0x3F := by
  simp only [decodeRune]
  repeat' split
  all_goals
    simp only [RuneError, isCont, decide_eq_true_eq] at *
    show @Ne Nat _ _
    omega

theorem decodeRunes_no_question (n : Nat) :
    ∀ s : GoString, s.length ≤ n → (∀ b ∈ s, b ≠ 0x3F) → ∀ r ∈ decodeRunes s, r ≠ 0x3F := by
  induction n with
  | zero =>
    intro s hs _ r hr
    have : s = [] := List.length_eq_zero.1 (Nat.le_zero.1 hs)
    subst this; simp [decodeRunes, decodeRunesAux] at hr
  | succ n ih =>
    intro s hs hq r hr
    cases s with
    | nil => simp [decodeRunes, decodeRunesAux] at hr
    | cons b rest =>
      have hw := decodeRune_width_pos b rest
      rw [decodeRunes_cons] at hr
      rcases List.mem_cons.1 hr with h | h
      · rw [h]; exact decodeRune_not_question b rest (hq b (List.mem_cons_self _ _))
      · refine ih _ ?_ (fun c hc => hq c (List.mem_of_mem_drop hc)) r h
        rw [List.length_drop, List.length_cons]
        simp only [List.length_cons] at hs
        omega

theorem encodeRune_no_question (r : Nat) (hr : r ≠ 0x3F) : ∀ b ∈ encodeRune r, b ≠ 0x3F := by
  intro b hb
  unfold encodeRune at hb
  split_ifs at hb <;> simp at hb <;> omega

theorem specConvertRune_eq (r : Nat) : specConvertRune r = classByte r := by
  have e1 : ['b', 'f', 'p', 'v'].map Char.toNat = [98, 102, 112, 118] := by decide
  have e2 : ['c', 'g', 'j', 'k', 'q', 's', 'x', 'z'].map Char.toNat
      = [99, 103, 106, 107, 113, 115, 120, 122] := by decide
  have e3 : ['d', 't'].map Char.toNat = [100, 116] := by decide
  have e4 : ['l'].map Char.toNat = [108] := by decide
  have e5 : ['m', 'n'].map Char.toNat = [109, 110] := by decide
  have e6 : ['r'].map Char.toNat = [114] := by decide
  have d1 : '1'.toNat = 49 := by decide
  have d2 : '2'.toNat = 50 := by decide
  have d3 : '3'.toNat = 51 := by decide
  have d4 : '4'.toNat = 52 := by decide
  have d5 : '5'.toNat = 53 := by decide
  have d6 : '6'.toNat = 54 := by decide
  unfold specConvertRune classByte
  rw [e1, e2, e3, e4, e5, e6, d1, d2, d3, d4, d5, d6]

theorem encodeRune_eq_singleton (r c : Nat) (hc : c < 0x80) : encodeRune r = [c] ↔ r = c := by
  constructor
  · intro h
    unfold encodeRune at h
    split_ifs at h <;> simp at h
    omega
  · intro h; rw [h]; exact encodeRune_ascii c hc

theorem contains_singletons_encodeRune (l : List Nat) (hl : ∀ c ∈ l, c < 0x80) (r : Nat) :
    contains (l.map (fun c => [c])) (encodeRune r) = decide (r ∈ l) := by
  induction l with
  | nil => simp [contains]
  | cons c l ih =>
    have hc := hl c (List.mem_cons_self _ _)
    have ih' := ih (fun d hd => hl d (List.mem_cons_of_mem _ hd))
    simp only [List.map_cons, contains, ih', encodeRune_eq_singleton r c hc]
    by_cases h : r = c <;> simp [h]

theorem convertLetter_eq (r : Nat) : convertLetter r = encodeRune (classByte r) := by
  have e1 : goString "1" = encodeRune 49 := by decide
  have e2 : goString "2" = encodeRune 50 := by decide
  have e3 : goString "3" = encodeRune 51 := by decide
  have e4 : goString "4" = encodeRune 52 := by decide
  have e5 : goString "5" = encodeRune 53 := by decide
  have e6 : goString "6" = encodeRune 54 := by decide
  simp only [convertLetter, classByte, letterToReplace1_eq,
    letterToReplace2_eq, letterToReplace3_eq, letterToReplace4_eq, letterToReplace5_eq,
    letterToReplace6_eq, e1, e2, e3, e4, e5, e6]
  rw [contains_singletons_encodeRune _ (by decide), contains_singletons_encodeRune _ (by decide),
    contains_singletons_encodeRune _ (by decide), contains_singletons_encodeRune _ (by decide),
    contains_singletons_encodeRune _ (by decide), contains_singletons_encodeRune _ (by decide)]
  simp only [decide_eq_true_eq]
  split_ifs <;> rfl

theorem stringsJoin_map_encodeRune (rs : List Nat) :
    stringsJoin (rs.map encodeRune) = encodeRunes rs := by
  induction rs with
  | nil => rfl
  | cons r rs ih => simp [stringsJoin, encodeRunes, ih]

theorem convertToNumber_eq (name : GoString) :
    convertToNumber name = (encodeRunes ((decodeRunes name).map classByte), none) := by
  have hm : (decodeRunes name).map convertLetter
      = ((decodeRunes name).map classByte).map encodeRune := by
    rw [List.map_map]
    exact List.map_congr_left (fun r _ => convertLetter_eq r)
  simp only [convertToNumber, foldl_append_singleton convertLetter,
    stringsJoin_replicate_nil, hm, stringsJoin_map_encodeRune]

theorem sanitizeRune_classByte (r : Nat) (h : sanitizeRune r = r) :
    sanitizeRune (classByte r) = classByte r := by
  unfold classByte
  split_ifs
  all_goals first
    | exact h
    | (unfold sanitizeRune; rw [if_neg]; omega)

theorem decodeRunes_mem_valid (n : Nat) :
    ∀ s : GoString, s.length ≤ n → ∀ r ∈ decodeRunes s, sanitizeRune r = r := by
  induction n with
  | zero =>
    intro s hs r hr
    have : s = [] := List.length_eq_zero.1 (Nat.le_zero.1 hs)
    subst this; simp [decodeRunes, decodeRunesAux] at hr
  | succ n ih =>
    intro s hs r hr
    cases s with
    | nil => simp [decodeRunes, decodeRunesAux] at hr
    | cons b rest =>
      have hw := decodeRune_width_pos b rest
      rw [decodeRunes_cons] at hr
      rcases List.mem_cons.1 hr with h | h
      · rw [h]; exact decodeRune_valid _
      · refine ih _ ?_ r h
        rw [List.length_drop, List.length_cons]
        simp only [List.length_cons] at hs
        omega

theorem decodeRunes_convertToNumber (name : GoString) :
    decodeRunes (convertToNumber name).1 = (decodeRunes name).map classByte := by
  rw [convertToNumber_eq, decodeRunes_encodeRunes, List.map_map]
  apply List.map_congr_left
  intro r hr
  exact sanitizeRune_classByte r (decodeRunes_mem_valid _ name (Nat.le_refl _) r hr)

theorem stringsJoin_append (l1 l2 : List GoString) :
    stringsJoin (l1 ++ l2) = stringsJoin l1 ++ stringsJoin l2 := by
  induction l1 with
  | nil => rfl
  | cons e l1 ih => simp [stringsJoin, ih]

theorem removeQuestionMarks_encodeRune (r : Nat) (hr : r ≠ 0x3F) :
    removeQuestionMarks (encodeRune r) = encodeRune r := by
  unfold removeQuestionMarks
  rw [List.filter_eq_self]
  intro b hb
  simpa using encodeRune_no_question r hr b hb

theorem removeQuestionMarks_append (s t : GoString) :
    removeQuestionMarks (s ++ t) = removeQuestionMarks s ++ removeQuestionMarks t := by
  unfold removeQuestionMarks; exact List.filter_append _ _

theorem removeDroppedLetters_eq (name : GoString) (hq : ∀ r ∈ decodeRunes name, r ≠ 0x3F) :
    removeDroppedLetters name
      = (encodeRunes ((decodeRunes name).filter (fun r => decide (r ∉ dropBytes))), none) := by
  have e : goString "?" = [0x3F] := by decide
  have hf : ∀ (acc : List GoString) (letter : Rune),
      (if contains letterToDrop (encodeRune letter) = true then acc ++ [goString "?"]
        else acc ++ [encodeRune letter])
      = acc ++ [if contains letterToDrop (encodeRune letter) = true then goString "?"
          else encodeRune letter] := by
    intro acc letter; split_ifs <;> rfl
  simp only [removeDroppedLetters, hf, foldl_append_singleton, List.nil_append]
  congr 1
  generalize decodeRunes name = rs at hq
  induction rs with
  | nil => rfl
  | cons r rs ih =>
    have hr : r ≠ 0x3F := hq r (List.mem_cons_self _ _)
    have ih' := ih (fun c hc => hq c (List.mem_cons_of_mem _ hc))
    rw [List.map_cons, stringsJoin, removeQuestionMarks_append, ih', letterToDrop_eq,
      contains_singletons_encodeRune _ (by decide), List.filter_cons]
    by_cases hd : r ∈ dropBytes
    · simp [hd, e, removeQuestionMarks]
    · simp [hd, encodeRunes, removeQuestionMarks_encodeRune r hr]

theorem decodeRunes_ne_nil (s : GoString) (h : s ≠ []) : decodeRunes s ≠ [] := by
  cases s with
  | nil => exact absurd rfl h
  | cons b rest => rw [decodeRunes_cons]; exact List.cons_ne_nil _ _

theorem encodeRunes_ne_nil (rs : List Nat) (h : rs ≠ []) : encodeRunes rs ≠ [] := by
  cases rs with
  | nil => exact absurd rfl h
  | cons r rs =>
    rw [encodeRunes]
    intro h0
    exact encodeRune_ne_nil r (List.append_eq_nil.1 h0).1

theorem encodeRunes_no_question (rs : List Nat) (h : ∀ r ∈ rs, r ≠ 0x3F) :
    ∀ b ∈ encodeRunes rs, b ≠ 0x3F := by
  induction rs with
  | nil => intro b hb; simp [encodeRunes] at hb
  | cons r rs ih =>
    intro b hb
    rw [encodeRunes] at hb
    rcases List.mem_append.1 hb with h1 | h1
    · exact encodeRune_no_question r (h r (List.mem_cons_self _ _)) b h1
    · exact ih (fun c hc => h c (List.mem_cons_of_mem _ hc)) b h1

theorem removeDup_eq (x : Nat) (rest : List Nat) (s : GoString)
    (h : decodeRunes s = x :: rest) :
    removeDup s = some (removeQuestionMarks (encodeRunes (markFrom x (x :: rest))), none) := by
  have hl := removeDupLoop_eq_markFrom (x :: rest) [] x
  simp only [List.length_cons, Nat.add_sub_cancel, List.length_nil, List.nil_append] at hl
  rw [removeDup, h]
  simp only [hl]

theorem markFrom_last (l : List Nat) :
    ∀ a : Nat, l ≠ [] → ∃ pre z, markFrom a l = pre ++ [z] ∧ z ∈ l := by
  induction l with
  | nil => intro _ h; exact absurd rfl h
  | cons x l ih =>
    intro a _
    cases l with
    | nil => exact ⟨[], x, by simp [markFrom], List.mem_cons_self _ _⟩
    | cons y rest =>
      have ih' := fun a => ih a (List.cons_ne_nil _ _)
      rw [markFrom]
      split_ifs
      · obtain ⟨pre, z, h1, h2⟩ := ih' y
        exact ⟨0x3F :: pre, z, by rw [h1]; rfl, List.mem_cons_of_mem _ h2⟩
      · obtain ⟨pre, z, h1, h2⟩ := ih' y
        exact ⟨0x3F :: pre, z, by rw [h1]; rfl, List.mem_cons_of_mem _ h2⟩
      · obtain ⟨pre, z, h1, h2⟩ := ih' a
        exact ⟨x :: pre, z, by rw [h1]; rfl, List.mem_cons_of_mem _ h2⟩
      · obtain ⟨pre, z, h1, h2⟩ := ih' y
        exact ⟨x :: pre, z, by rw [h1]; rfl, List.mem_cons_of_mem _ h2⟩

theorem removeDup_nonempty (s : GoString) (hne : s ≠ []) (hq : ∀ b ∈ s, b ≠ 0x3F) :
    ∃ out, out ≠ [] ∧ removeDup s = some (out, none) := by
  cases hd : decodeRunes s with
  | nil => exact absurd hd (decodeRunes_ne_nil s hne)
  | cons x rest =>
    refine ⟨_, ?_, removeDup_eq x rest s hd⟩
    obtain ⟨pre, z, h1, h2⟩ := markFrom_last (x :: rest) x (List.cons_ne_nil _ _)
    have hz : z ≠ 0x3F := by
      have := decodeRunes_no_question s.length s (Nat.le_refl _) hq z
      rw [hd] at this
      exact this h2
    rw [h1, encodeRunes_append, removeQuestionMarks_append]
    have e : encodeRunes [z] = encodeRune z := by simp [encodeRunes]
    rw [e, removeQuestionMarks_encodeRune z hz]
    intro h0
    exact encodeRune_ne_nil z (List.append_eq_nil.1 h0).2

theorem stripPad_total (s : GoString) : ∃ out, stripPad s = some (out, none) := by
  have hl := decodeRunes_length_le s.length s (Nat.le_refl _)
  unfold stripPad runeCountInString
  split_ifs with h1 h2 h3 h4
  · exact ⟨_, rfl⟩
  · exact ⟨_, rfl⟩
  · exact absurd (Nat.le_trans (Nat.le_of_lt h2) hl |> fun h => by omega) h3
  · exact ⟨_, rfl⟩
  · exact ⟨_, rfl⟩

theorem asciiToLower_lt (b : Nat) (h : b < 0x80) : asciiToLower b < 0x80 := by
  unfold asciiToLower; split_ifs <;> omega

theorem stringsToLower_eq (T : UnicodeTables) (s : GoString) :
    stringsToLower T s = encodeRunes ((decodeRunes s).map (unicodeToLower T)) := by
  unfold stringsToLower
  split_ifs with h
  · have ha : ∀ b ∈ s, b < 0x80 := by simpa [List.all_eq_true] using h
    rw [decodeRunes_ascii s ha]
    have hm : s.map (unicodeToLower T) = s.map asciiToLower := by
      apply List.map_congr_left
      intro b hb
      have hlt : b < 0x80 := ha b hb
      have : b ≤ 0x7F := Nat.le_of_lt_succ hlt
      rw [unicodeToLower, if_pos this]
    rw [hm, encodeRunes_ascii]
    intro r hr
    obtain ⟨b, hb, rfl⟩ := List.mem_map.1 hr
    exact asciiToLower_lt b (ha b hb)
  · rfl

theorem makeLower_error_iff (T : UnicodeTables) (name : GoString) :
    (makeLower T name).2 ≠ none
      ↔ (name = [] ∨ ∃ r ∈ decodeRunes name, unicodeIsLetter T r = false) := by
  unfold makeLower
  by_cases h1 : name = []
  · simp [h1]
  · by_cases h2 : (decodeRunes name).any (fun letter => !unicodeIsLetter T letter) = true
    · simp only [h1, h2, if_true, if_false, false_or]
      simp only [List.any_eq_true, Bool.not_eq_true'] at h2
      simpa using h2
    · simp only [h1, h2, if_false, false_or]
      simp only [List.any_eq_true, Bool.not_eq_true', not_exists, not_and] at h2
      constructor
      · intro h; exact absurd rfl h
      · rintro ⟨r, hr, hf⟩
        exact absurd hf (h2 r hr)

theorem makeLower_valid (T : UnicodeTables) (name : GoString) (hv : ValidName T name) :
    makeLower T name = (encodeRunes ((decodeRunes name).map (unicodeToLower T)), none) := by
  have h2 : ¬ ((decodeRunes name).any (fun letter => !unicodeIsLetter T letter) = true) := by
    simp only [List.any_eq_true, Bool.not_eq_true', not_exists, not_and]
    intro r hr
    simp [hv.2 r hr]
  rw [makeLower, if_neg hv.1, if_neg h2, stringsToLower_eq]

theorem makeLower_invalid (T : UnicodeTables) (name : GoString) (hne : name ≠ [])
    (hbad : ∃ r ∈ decodeRunes name, unicodeIsLetter T r = false) :
    makeLower T name = (goString "error", some GoError.nonAlpha) := by
  have h2 : (decodeRunes name).any (fun letter => !unicodeIsLetter T letter) = true := by
    simp only [List.any_eq_true, Bool.not_eq_true']
    exact hbad
  rw [makeLower, if_neg hne, if_pos h2]

theorem latin1Letter_not_question (r : Nat) (h : latin1Letter r = true) :
    r ≠ 0x3F ∧ r ≠ 0x1F := by
  constructor <;> (rintro rfl; exact absurd h (by decide))

theorem classByte_ne_question (r : Nat) (h : r ≠ 0x3F) : classByte r ≠ 0x3F := by
  unfold classByte
  split_ifs
  all_goals first
    | exact h
    | omega

theorem unicodeToLower_ne_question (T : UnicodeTables)
    (hT : ∀ r, 0x7F < r → T.lowerCase r ≠ 0x3F) (r : Nat) (hl : unicodeIsLetter T r = true) :
    unicodeToLower T r ≠ 0x3F := by
  unfold unicodeToLower
  split_ifs with h
  · have h0 : @LE.le Nat _ r 0x7F := h
    have h1 : r ≤ 0xFF := Nat.le_trans h0 (by decide)
    rw [unicodeIsLetter, if_pos h1] at hl
    have := latin1Letter_not_question r hl
    show @Ne Nat _ _
    unfold asciiToLower
    split_ifs <;> omega
  · have h0 : ¬ @LE.le Nat _ r 0x7F := h
    exact hT r (Nat.lt_of_not_le h0)

theorem pipeline_of_valid (T : UnicodeTables) (hT : ∀ r, 0x7F < r → T.lowerCase r ≠ 0x3F)
    (name : GoString) (hv : ValidName T name) :
    ∃ rInit low conv dedup rest digits,
      (decodeRunes name).head? = some rInit
        ∧ makeLower T name = (low, none)
        ∧ convertToNumber low = (conv, none)
        ∧ removeDup conv = some (dedup, none) ∧ dedup ≠ []
        ∧ removeFirstNumber dedup = some (rest, none)
        ∧ stripPad (removeDroppedLetters rest).1 = some (digits, none)
        ∧ Create T name = some (encodeRune rInit ++ digits, none) := by
  have hrn := decodeRunes_ne_nil name hv.1
  have hlow := makeLower_valid T name hv
  have hlq : ∀ b ∈ encodeRunes ((decodeRunes name).map (unicodeToLower T)), b ≠ 0x3F := by
    apply encodeRunes_no_question
    intro r hr
    obtain ⟨a, ha, rfl⟩ := List.mem_map.1 hr
    exact unicodeToLower_ne_question T hT a (hv.2 a ha)
  have hlne : encodeRunes ((decodeRunes name).map (unicodeToLower T)) ≠ [] :=
    encodeRunes_ne_nil _ (by simpa using hrn)
  generalize encodeRunes ((decodeRunes name).map (unicodeToLower T)) = low at hlow hlq hlne
  have hconv := convertToNumber_eq low
  have hcq : ∀ b ∈ encodeRunes ((decodeRunes low).map classByte), b ≠ 0x3F := by
    apply encodeRunes_no_question
    intro r hr
    obtain ⟨a, ha, rfl⟩ := List.mem_map.1 hr
    exact classByte_ne_question a (decodeRunes_no_question _ _ (Nat.le_refl _) hlq a ha)
  have hcne : encodeRunes ((decodeRunes low).map classByte) ≠ [] :=
    encodeRunes_ne_nil _ (by simpa using decodeRunes_ne_nil _ hlne)
  generalize encodeRunes ((decodeRunes low).map classByte) = conv at hconv hcq hcne
  obtain ⟨dedup, hdne, hdup⟩ := removeDup_nonempty _ hcne hcq
  cases hr : decodeRunes name with
  | nil => exact absurd hr hrn
  | cons rInit rs =>
    cases hd : dedup with
    | nil => exact absurd hd hdne
    | cons d0 rest =>
      obtain ⟨digits, hpad⟩ := stripPad_total (removeDroppedLetters rest).1
      rw [hd] at hdup
      refine ⟨rInit, low, conv, d0 :: rest, rest, digits, rfl, hlow, hconv,
        hdup, List.cons_ne_nil _ _, rfl, hpad, ?_⟩
      simp only [Create, hr, hlow, hconv, hdup, removeFirstNumber, hpad]

theorem classified_not_drop_iff (b : Nat) (h : IsClassified b) :
    b ∉ dropBytes ↔ (0x31 ≤ b ∧ b ≤ 0x36) := by
  unfold IsClassified at h
  constructor
  · intro hn
    rcases h with h | h
    · exact h
    · exact absurd h hn
  · intro hd hm
    unfold dropBytes at hm
    simp at hm
    omega

theorem Create_error_nil (T : UnicodeTables) (name code : GoString) (err : Option GoError)
    (h : Create T name = some (code, err)) : err = none := by
  unfold Create at h
  split at h
  · exact absurd h (by simp)
  · simp only at h
    split at h
    · exact absurd h (by simp)
    · split at h
      · exact absurd h (by simp)
      · split at h
        · exact absurd h (by simp)
        · injection h with h; injection h with _ h2; exact h2.symm

theorem Create_of_makeLower_error (T : UnicodeTables) (name : GoString) (rInit : Nat)
    (rs : List Nat) (hr : decodeRunes name = rInit :: rs) (e : Option GoError)
    (hm : makeLower T name = (goString "error", e)) :
    Create T name = some (encodeRune rInit ++ goString "660", none) := by
  have h1 : (convertToNumber (goString "error")).1 = goString "e66o6" := by decide
  have h2 : removeDup (goString "e66o6") = some (goString "e6o6", none) := by decide
  have h3 : removeFirstNumber (goString "e6o6") = some (goString "6o6", none) := by decide
  have h4 : (removeDroppedLetters (goString "6o6")).1 = goString "66" := by decide
  have h5 : stripPad (goString "66") = some (goString "660", none) := by decide
  simp only [Create, hr, hm, h1, h2, h3, h4, h5]

theorem take_three_padded_shape (f : List Nat) (hf : ∀ b ∈ f, 0x31 ≤ b ∧ b ≤ 0x36) :
    ∃ d1 d2 d3, (f ++ [0x30, 0x30, 0x30]).take 3 = [d1, d2, d3]
      ∧ (0x30 ≤ d1 ∧ d1 ≤ 0x36) ∧ (0x30 ≤ d2 ∧ d2 ≤ 0x36) ∧ (0x30 ≤ d3 ∧ d3 ≤ 0x36)
      ∧ (d1 = 0x30 → d2 = 0x30) ∧ (d2 = 0x30 → d3 = 0x30) := by
  match f, hf with
  | [], _ => exact ⟨_, _, _, rfl, by omega, by omega, by omega, fun _ => rfl, fun _ => rfl⟩
  | [a], hf =>
    have ha := hf a (by simp)
    exact ⟨_, _, _, rfl, by omega, by omega, by omega, fun _ => rfl, fun _ => rfl⟩
  | [a, b], hf =>
    have ha := hf a (by simp)
    have hb := hf b (by simp)
    exact ⟨_, _, _, rfl, by omega, by omega, by omega, fun h => by omega, fun _ => rfl⟩
  | a :: b :: c :: t, hf =>
    have ha := hf a (by simp)
    have hb := hf b (by simp)
    have hc := hf c (by simp)
    exact ⟨a, b, c, by simp, by omega, by omega, by omega, fun h => by omega, fun h => by omega⟩

theorem soundexDigits_shape (low : GoString) (h : ∀ b ∈ low, 0x61 ≤ b ∧ b ≤ 0x7A) :
    ∃ d1 d2 d3, soundexDigits low = [d1, d2, d3]
      ∧ (0x30 ≤ d1 ∧ d1 ≤ 0x36) ∧ (0x30 ≤ d2 ∧ d2 ≤ 0x36) ∧ (0x30 ≤ d3 ∧ d3 ≤ 0x36)
      ∧ (d1 = 0x30 → d2 = 0x30) ∧ (d2 = 0x30 → d3 = 0x30) := by
  unfold soundexDigits
  apply take_three_padded_shape
  intro b hb
  have hnd : b ∉ dropBytes := by simpa using (List.mem_filter.1 hb).2
  have hb1 := (keepFrom_sublist _ _).subset (List.mem_of_mem_tail (List.mem_of_mem_filter hb))
  obtain ⟨a, ha, rfl⟩ := List.mem_map.1 hb1
  have hc : IsClassified (classByte a) := classByte_lower a (by have := h a ha; omega) (h a ha).1
  rcases hc with hc | hc
  · exact hc
  · exact absurd hc hnd

theorem asciiToLower_idem (b : Nat) : asciiToLower (asciiToLower b) = asciiToLower b := by
  unfold asciiToLower; split_ifs <;> omega

theorem asciiToLower_upper (b : Nat) : asciiToLower (asciiToUpper b) = asciiToLower b := by
  unfold asciiToLower asciiToUpper; split_ifs <;> omega

theorem asciiToLower_isLetter (b : Nat) (h : IsAsciiLetter b) : IsAsciiLetter (asciiToLower b) := by
  unfold IsAsciiLetter at *; unfold asciiToLower; split_ifs <;> omega

theorem asciiToUpper_isLetter (b : Nat) (h : IsAsciiLetter b) : IsAsciiLetter (asciiToUpper b) := by
  unfold IsAsciiLetter at *; unfold asciiToUpper; split_ifs <;> omega

theorem keepFrom_step (a x y : Nat) (rest : List Nat) :
    keepFrom a (x :: y :: rest)
      = if isMarked a x y rest.head? then keepFrom (nextLast a x y rest.head?) (y :: rest)
        else x :: keepFrom (nextLast a x y rest.head?) (y :: rest) := by
  rw [keepFrom]
  unfold isMarked nextLast IsHW
  cases rest with
  | nil =>
    by_cases h1 : y = a
    · simp [h1]
    · simp [h1]
  | cons z r =>
    by_cases h1 : y = a
    · simp [h1]
    · by_cases h2 : y = 0x68 ∨ y = 0x77
      · by_cases h3 : x = z
        · simp [h1, h2, h3]
        · simp [h1, h2, h3]
      · simp [h1, h2]

theorem not_hw_of_digit (u : Nat) (h : IsClassDigit u) : ¬ IsHW u := by
  unfold IsClassDigit at h; unfold IsHW; omega

theorem PhonRel_refl (u : Nat) : PhonRel u u := by
  unfold PhonRel
  by_cases h1 : IsClassDigit u
  · exact Or.inl ⟨h1, rfl⟩
  · by_cases h2 : IsHW u
    · exact Or.inr (Or.inl ⟨h2, rfl⟩)
    · exact Or.inr (Or.inr ⟨h1, h2, h1, h2⟩)

theorem PhonRel_symm (u v : Nat) (h : PhonRel u v) : PhonRel v u := by
  unfold PhonRel at *
  rcases h with ⟨h1, rfl⟩ | ⟨h1, rfl⟩ | ⟨h1, h2, h3, h4⟩
  · exact Or.inl ⟨h1, rfl⟩
  · exact Or.inr (Or.inl ⟨h1, rfl⟩)
  · exact Or.inr (Or.inr ⟨h3, h4, h1, h2⟩)

theorem PhonRel_digit (u v : Nat) (h : PhonRel u v) (hd : IsClassDigit u) :
    u = v := by
  unfold PhonRel at h
  rcases h with ⟨_, h⟩ | ⟨h1, _⟩ | ⟨h1, _⟩
  · exact h
  · exact absurd h1 (not_hw_of_digit u hd)
  · exact absurd hd h1

theorem PhonRel_hw (u v : Nat) (h : PhonRel u v) (hd : IsHW u) : u = v := by
  unfold PhonRel at h
  rcases h with ⟨h1, _⟩ | ⟨_, h⟩ | ⟨_, h1, _⟩
  · exact absurd hd (not_hw_of_digit u h1)
  · exact h
  · exact absurd hd h1

theorem OptRel_symm (zo1 zo2 : Option Nat) (h : OptRel zo1 zo2) : OptRel zo2 zo1 := by
  unfold OptRel at *
  rcases h with ⟨h1, h2⟩ | ⟨z1, z2, h1, h2, h3⟩
  · exact Or.inl ⟨h2, h1⟩
  · exact Or.inr ⟨z2, z1, h2, h1, PhonRel_symm _ _ h3⟩

theorem OptRel_none (zo1 zo2 : Option Nat) (h : OptRel zo1 zo2) : zo1 = none ↔ zo2 = none := by
  unfold OptRel at h
  rcases h with ⟨h1, h2⟩ | ⟨z1, z2, h1, h2, _⟩
  · simp [h1, h2]
  · simp [h1, h2]

theorem OptRel_some_imp (x1 x2 : Nat) (zo1 zo2 : Option Nat) (hx : PhonRel x1 x2)
    (hk : IsClassDigit x1 ∨ IsHW x1) (hz : OptRel zo1 zo2) (h : some x1 = zo1) :
    some x2 = zo2 := by
  have hxe : x1 = x2 := by
    rcases hk with hk | hk
    · exact PhonRel_digit _ _ hx hk
    · exact PhonRel_hw _ _ hx hk
  unfold OptRel at hz
  rcases hz with ⟨h1, _⟩ | ⟨z1, z2, h1, h2, h3⟩
  · rw [h1] at h; exact absurd h (by simp)
  · rw [h1] at h
    have hz1 : x1 = z1 := by injection h
    have hze : z1 = z2 := by
      rcases hk with hk | hk
      · exact PhonRel_digit _ _ h3 (hz1 ▸ hk)
      · exact PhonRel_hw _ _ h3 (hz1 ▸ hk)
    rw [h2, ← hxe, hz1, hze]

theorem OptRel_some_iff (x1 x2 : Nat) (zo1 zo2 : Option Nat) (hx : PhonRel x1 x2)
    (hk : IsClassDigit x1 ∨ IsHW x1) (hz : OptRel zo1 zo2) :
    some x1 = zo1 ↔ some x2 = zo2 := by
  constructor
  · exact OptRel_some_imp x1 x2 zo1 zo2 hx hk hz
  · have hxe : x1 = x2 := by
      rcases hk with hk | hk
      · exact PhonRel_digit _ _ hx hk
      · exact PhonRel_hw _ _ hx hk
    exact OptRel_some_imp x2 x1 zo2 zo1 (PhonRel_symm _ _ hx) (hxe ▸ hk) (OptRel_symm _ _ hz)

theorem PhonRel_hw_iff (u v : Nat) (h : PhonRel u v) : IsHW u ↔ IsHW v := by
  constructor
  · intro hu; exact (PhonRel_hw u v h hu) ▸ hu
  · intro hv
    have := PhonRel_hw v u (PhonRel_symm _ _ h) hv
    exact this ▸ hv

theorem PhonRel_digit_iff (u v : Nat) (h : PhonRel u v) : IsClassDigit u ↔ IsClassDigit v := by
  constructor
  · intro hu; exact (PhonRel_digit u v h hu) ▸ hu
  · intro hv
    have := PhonRel_digit v u (PhonRel_symm _ _ h) hv
    exact this ▸ hv

theorem nextLast_inv (a x y : Nat) (zo : Option Nat) :
    nextLast a x y zo = y ∨ IsHW y := by
  unfold nextLast
  split_ifs with h1 h2 h3
  · exact Or.inl rfl
  · exact Or.inl rfl
  · exact Or.inr h2.1
  · exact Or.inl rfl

theorem nextLast_of_marked (a x y : Nat) (zo : Option Nat) (h : isMarked a x y zo) :
    nextLast a x y zo = y := by
  unfold isMarked at h
  unfold nextLast
  split_ifs with h1 h2 h3
  · rfl
  · rfl
  · rcases h with h | h
    · exact absurd h h1
    · exact absurd h.2 h3
  · rfl

theorem nextLast_cases (a x y : Nat) (zo : Option Nat) :
    nextLast a x y zo = y
      ∨ (nextLast a x y zo = a ∧ IsHW y ∧ zo ≠ none ∧ ¬ some x = zo) := by
  unfold nextLast
  split_ifs with h1 h2 h3
  · exact Or.inl rfl
  · exact Or.inl rfl
  · exact Or.inr ⟨rfl, h2.1, h2.2, h3⟩
  · exact Or.inl rfl

theorem nextLast_hw_case (a x y : Nat) (zo : Option Nat) (hy : IsHW y) (ha : ¬ IsHW a)
    (hz : zo ≠ none) (hx : ¬ some x = zo) : nextLast a x y zo = a := by
  unfold nextLast
  have h1 : ¬ y = a := fun h => ha (h ▸ hy)
  rw [if_neg h1, if_pos ⟨hy, hz⟩, if_neg hx]

theorem marked_iff_of_digit (a1 a2 x1 x2 y1 y2 : Nat) (zo1 zo2 : Option Nat)
    (hy : PhonRel y1 y2) (hz : OptRel zo1 zo2) (hx : PhonRel x1 x2)
    (i1 : a1 = x1 ∨ IsHW x1) (i2 : a2 = x2 ∨ IsHW x2) (hdx : IsClassDigit x1) :
    isMarked a1 x1 y1 zo1 ↔ isMarked a2 x2 y2 zo2 := by
  have hxe : x1 = x2 := PhonRel_digit _ _ hx hdx
  have ha1 : a1 = x1 := i1.resolve_right (not_hw_of_digit _ hdx)
  have ha2 : a2 = x2 := i2.resolve_right (not_hw_of_digit _ (hxe ▸ hdx))
  unfold isMarked
  apply or_congr
  · constructor
    · intro h
      have hdy : IsClassDigit y1 := by rw [h, ha1]; exact hdx
      rw [← PhonRel_digit _ _ hy hdy, h, ha1, ha2, hxe]
    · intro h
      have hdy : IsClassDigit y2 := by rw [h, ha2, ← hxe]; exact hdx
      have := PhonRel_digit _ _ (PhonRel_symm _ _ hy) hdy
      rw [← this, h, ha1, ha2, hxe]
  · exact and_congr (PhonRel_hw_iff _ _ hy) (OptRel_some_iff _ _ _ _ hx (Or.inl hdx) hz)

theorem not_digit_of_marked_once (a1 a2 x1 x2 y1 y2 : Nat) (zo1 zo2 : Option Nat)
    (hy : PhonRel y1 y2)
    (hd : IsClassDigit a1 ∨ IsClassDigit a2 → a1 = a2)
    (h1 : isMarked a1 x1 y1 zo1) (h2 : ¬ isMarked a2 x2 y2 zo2) : ¬ IsClassDigit y1 := by
  intro hdy
  have hye : y1 = y2 := PhonRel_digit _ _ hy hdy
  unfold isMarked at h1 h2
  rcases h1 with h1 | h1
  · have hda : IsClassDigit a1 := h1 ▸ hdy
    have := hd (Or.inl hda)
    exact h2 (Or.inl (by rw [← hye, h1, this]))
  · exact not_hw_of_digit _ hdy h1.1

theorem nextLast_sim (a1 a2 x1 x2 y1 y2 : Nat) (zo1 zo2 : Option Nat)
    (hy : PhonRel y1 y2) (hz : OptRel zo1 zo2) (hx : PhonRel x1 x2)
    (i1 : a1 = x1 ∨ IsHW x1) (i2 : a2 = x2 ∨ IsHW x2)
    (hd : IsClassDigit a1 ∨ IsClassDigit a2 → a1 = a2)
    (h : IsClassDigit (nextLast a1 x1 y1 zo1) ∨ IsClassDigit (nextLast a2 x2 y2 zo2)) :
    nextLast a1 x1 y1 zo1 = nextLast a2 x2 y2 zo2 := by
  -- a digit `lastLetter` forces the head to be classified the same on both sides
  have key : ∀ (b1 b2 u1 u2 v1 v2 : Nat) (w1 w2 : Option Nat), PhonRel v1 v2 → OptRel w1 w2 →
      PhonRel u1 u2 → (b1 = u1 ∨ IsHW u1) → IsClassDigit b1 → b1 = b2 →
      IsHW v1 → w1 ≠ none → ¬ some u1 = w1 → nextLast b2 u2 v2 w2 = b2 := by
    intro b1 b2 u1 u2 v1 v2 w1 w2 hv hw hu j1 hb hbe hv1 hw1 hu1
    have hk : IsClassDigit u1 ∨ IsHW u1 := by
      rcases j1 with j1 | j1
      · exact Or.inl (j1 ▸ hb)
      · exact Or.inr j1
    apply nextLast_hw_case
    · exact (PhonRel_hw_iff _ _ hv).1 hv1
    · exact hbe ▸ (fun hh => not_hw_of_digit _ hb hh)
    · exact fun hn => hw1 ((OptRel_none _ _ hw).2 hn)
    · exact fun hs => hu1 ((OptRel_some_iff _ _ _ _ hu hk hw).2 hs)
  rcases nextLast_cases a1 x1 y1 zo1 with c1 | ⟨c1, hv1, hw1, hu1⟩ <;>
    rcases nextLast_cases a2 x2 y2 zo2 with c2 | ⟨c2, hv2, hw2, hu2⟩
  · rw [c1, c2] at h ⊢
    rcases h with h | h
    · exact PhonRel_digit _ _ hy h
    · exact (PhonRel_digit _ _ (PhonRel_symm _ _ hy) h).symm
  · rw [c1, c2] at h
    rcases h with h | h
    · exact absurd ((PhonRel_hw_iff _ _ hy).2 hv2) (not_hw_of_digit _ h)
    · have hae : a2 = a1 := (hd (Or.inr h)).symm
      have := key a2 a1 x2 x1 y2 y1 zo2 zo1 (PhonRel_symm _ _ hy) (OptRel_symm _ _ hz)
        (PhonRel_symm _ _ hx) i2 h hae hv2 hw2 hu2
      rw [this, c2, hae]
  · rw [c1, c2] at h
    rcases h with h | h
    · have hae : a1 = a2 := hd (Or.inl h)
      have := key a1 a2 x1 x2 y1 y2 zo1 zo2 hy hz hx i1 h hae hv1 hw1 hu1
      rw [this, c1, hae]
    · exact absurd ((PhonRel_hw_iff _ _ hy).1 hv1) (not_hw_of_digit _ h)
  · rw [c1, c2] at h ⊢
    exact hd h

theorem filter_digit_single (x1 x2 : Nat) (hx : PhonRel x1 x2) :
    [x1].filter (fun b => decide (IsClassDigit b)) = [x2].filter (fun b => decide (IsClassDigit b)) := by
  by_cases h : IsClassDigit x1
  · rw [← PhonRel_digit _ _ hx h]
  · have h2 : ¬ IsClassDigit x2 := fun h2 => h ((PhonRel_digit_iff _ _ hx).2 h2)
    simp [h, h2]

theorem forall₂_head_optRel (r1 r2 : List Nat) (h : List.Forall₂ PhonRel r1 r2) :
    OptRel r1.head? r2.head? := by
  cases h with
  | nil => exact Or.inl ⟨rfl, rfl⟩
  | cons hz _ => exact Or.inr ⟨_, _, rfl, rfl, hz⟩

theorem keepFrom_filter_sim (l1 l2 : List Nat) (h : List.Forall₂ PhonRel l1 l2) :
    ∀ a1 a2 : Nat, (∀ x, l1.head? = some x → a1 = x ∨ IsHW x) →
      (∀ x, l2.head? = some x → a2 = x ∨ IsHW x) →
      (IsClassDigit a1 ∨ IsClassDigit a2 → a1 = a2) →
      (keepFrom a1 l1).filter (fun b => decide (IsClassDigit b))
        = (keepFrom a2 l2).filter (fun b => decide (IsClassDigit b)) := by
  induction h with
  | nil => intro _ _ _ _ _; rfl
  | @cons x1 x2 t1 t2 hx ht ih =>
    intro a1 a2 i1 i2 hd
    cases ht with
    | nil => simpa [keepFrom] using filter_digit_single x1 x2 hx
    | @cons y1 y2 r1 r2 hy hr =>
      have hz := forall₂_head_optRel r1 r2 hr
      have j1 := i1 x1 rfl
      have j2 := i2 x2 rfl
      have ihn := ih (nextLast a1 x1 y1 r1.head?) (nextLast a2 x2 y2 r2.head?)
        (fun x hx' => by
          have : y1 = x := by simpa using hx'
          rw [← this]; exact nextLast_inv _ _ _ _)
        (fun x hx' => by
          have : y2 = x := by simpa using hx'
          rw [← this]; exact nextLast_inv _ _ _ _)
        (nextLast_sim a1 a2 x1 x2 y1 y2 _ _ hy hz hx j1 j2 hd)
      rw [keepFrom_step, keepFrom_step]
      by_cases hdx : IsClassDigit x1
      · have hxe : x1 = x2 := PhonRel_digit _ _ hx hdx
        have hm := marked_iff_of_digit a1 a2 x1 x2 y1 y2 _ _ hy hz hx j1 j2 hdx
        by_cases m1 : isMarked a1 x1 y1 r1.head?
        · rw [if_pos m1, if_pos (hm.1 m1)]; exact ihn
        · rw [if_neg m1, if_neg (fun m2 => m1 (hm.2 m2)), List.filter_cons, List.filter_cons,
            ihn, hxe]
      · have hdx2 : ¬ IsClassDigit x2 := fun h2 => hdx ((PhonRel_digit_iff _ _ hx).2 h2)
        have e1 : ∀ t : List Nat, (x1 :: t).filter (fun b => decide (IsClassDigit b))
            = t.filter (fun b => decide (IsClassDigit b)) := by
          intro t; simp [hdx]
        have e2 : ∀ t : List Nat, (x2 :: t).filter (fun b => decide (IsClassDigit b))
            = t.filter (fun b => decide (IsClassDigit b)) := by
          intro t; simp [hdx2]
        split_ifs <;> simp only [e1, e2, ihn]

theorem keepFrom_head_not_digit (y : Nat) (r : List Nat) (hy : ¬ IsClassDigit y) :
    ((keepFrom y (y :: r)).tail).filter (fun b => decide (IsClassDigit b))
      = (keepFrom y (y :: r)).filter (fun b => decide (IsClassDigit b)) := by
  cases hk : keepFrom y (y :: r) with
  | nil => rfl
  | cons k ks =>
    have hkd : ¬ IsClassDigit k := by
      intro hd
      have hdb : IsDigitByte k := by
        unfold IsClassDigit at hd; unfold IsDigitByte; omega
      have := keepFrom_head_digit (y :: r) y k hdb (fun z hz => Or.inl (by simpa using hz))
        (by rw [hk]; rfl)
      rcases this with h | ⟨a, b, t, h1, _, _, h4⟩
      · have : y = k := by simpa using h
        exact hy (this ▸ hd)
      · exact hy (h4 ▸ hd)
    simp [hkd]

theorem keepFrom_tail_filter_sim (l1 l2 : List Nat) (h : List.Forall₂ PhonRel l1 l2) :
    ∀ a1 a2 : Nat, (∀ x, l1.head? = some x → a1 = x ∨ IsHW x) →
      (∀ x, l2.head? = some x → a2 = x ∨ IsHW x) →
      (IsClassDigit a1 ∨ IsClassDigit a2 → a1 = a2) →
      ((keepFrom a1 l1).tail).filter (fun b => decide (IsClassDigit b))
        = ((keepFrom a2 l2).tail).filter (fun b => decide (IsClassDigit b)) := by
  induction h with
  | nil => intro _ _ _ _ _; rfl
  | @cons x1 x2 t1 t2 hx ht ih =>
    intro a1 a2 i1 i2 hd
    cases ht with
    | nil => simp [keepFrom]
    | @cons y1 y2 r1 r2 hy hr =>
      have hz := forall₂_head_optRel r1 r2 hr
      have j1 := i1 x1 rfl
      have j2 := i2 x2 rfl
      have n1 : ∀ x, (y1 :: r1).head? = some x → nextLast a1 x1 y1 r1.head? = x ∨ IsHW x := by
        intro x hx'
        have : y1 = x := by simpa using hx'
        rw [← this]; exact nextLast_inv _ _ _ _
      have n2 : ∀ x, (y2 :: r2).head? = some x → nextLast a2 x2 y2 r2.head? = x ∨ IsHW x := by
        intro x hx'
        have : y2 = x := by simpa using hx'
        rw [← this]; exact nextLast_inv _ _ _ _
      have nd := nextLast_sim a1 a2 x1 x2 y1 y2 _ _ hy hz hx j1 j2 hd
      have ihn := ih _ _ n1 n2 nd
      have hA := keepFrom_filter_sim (y1 :: r1) (y2 :: r2) (List.Forall₂.cons hy hr) _ _ n1 n2 nd
      rw [keepFrom_step, keepFrom_step]
      by_cases m1 : isMarked a1 x1 y1 r1.head? <;> by_cases m2 : isMarked a2 x2 y2 r2.head?
      · rw [if_pos m1, if_pos m2]; exact ihn
      · rw [if_pos m1, if_neg m2, List.tail_cons, ← hA]
        have hyd := not_digit_of_marked_once a1 a2 x1 x2 y1 y2 _ _ hy hd m1 m2
        rw [nextLast_of_marked _ _ _ _ m1]
        exact keepFrom_head_not_digit y1 r1 hyd
      · rw [if_neg m1, if_pos m2, List.tail_cons, hA]
        have hyd := not_digit_of_marked_once a2 a1 x2 x1 y2 y1 _ _ (PhonRel_symm _ _ hy)
          (fun h => (hd h.symm).symm) m2 m1
        rw [nextLast_of_marked _ _ _ _ m2]
        exact (keepFrom_head_not_digit y2 r2 hyd).symm
      · rw [if_neg m1, if_neg m2, List.tail_cons, List.tail_cons]; exact hA

theorem classByte_vowel : ∀ b ∈ vowelBytes, classByte b = b ∧ ¬ IsClassDigit b ∧ ¬ IsHW b := by
  decide

theorem classByte_hw (b : Nat) (h : IsHW b) : classByte b = b := by
  unfold IsHW at h
  rcases h with rfl | rfl <;> rfl

theorem phonRel_of_samePhoneticClass (a b : Nat) (h : SamePhoneticClass a b) :
    PhonRel (classByte (asciiToLower a)) (classByte (asciiToLower b)) := by
  unfold SamePhoneticClass at h
  rcases h with ⟨h1, h2⟩ | ⟨h1, h2⟩ | ⟨h1, h2⟩
  · exact Or.inl ⟨h1, h2⟩
  · have v1 := classByte_vowel _ h1
    have v2 := classByte_vowel _ h2
    rw [v1.1, v2.1]
    exact Or.inr (Or.inr ⟨v1.2.1, v1.2.2, v2.2.1, v2.2.2⟩)
  · rw [← h2, classByte_hw _ h1]
    exact Or.inr (Or.inl ⟨h1, rfl⟩)

theorem filter_not_drop_eq_digit (l : List Nat) (h : ∀ b ∈ l, IsClassified b) :
    l.filter (fun b => decide (b ∉ dropBytes)) = l.filter (fun b => decide (IsClassDigit b)) := by
  apply List.filter_congr
  intro b hb
  rw [decide_eq_decide]
  exact classified_not_drop_iff b (h b hb)

theorem soundexDigits_eq_of_related (c : Nat) (t1 t2 : GoString)
    (h1 : ∀ b ∈ c :: t1, 0x61 ≤ asciiToLower b ∧ asciiToLower b ≤ 0x7A)
    (h2 : ∀ b ∈ c :: t2, 0x61 ≤ asciiToLower b ∧ asciiToLower b ≤ 0x7A)
    (hrel : List.Forall₂ SamePhoneticClass t1 t2) :
    soundexDigits ((c :: t1).map asciiToLower) = soundexDigits ((c :: t2).map asciiToLower) := by
  have hcl : ∀ t : GoString, (∀ b ∈ c :: t, 0x61 ≤ asciiToLower b ∧ asciiToLower b ≤ 0x7A) →
      ∀ b ∈ (keepFrom (classByte (asciiToLower c))
        (((c :: t).map asciiToLower).map classByte)).tail, IsClassified b := by
    intro t ht b hb
    have hb1 := (keepFrom_sublist _ _).subset (List.mem_of_mem_tail hb)
    rw [List.map_map] at hb1
    obtain ⟨a, ha, rfl⟩ := List.mem_map.1 hb1
    have := ht a ha
    exact classByte_lower _ (by omega) this.1
  have hF : List.Forall₂ PhonRel (((c :: t1).map asciiToLower).map classByte)
      (((c :: t2).map asciiToLower).map classByte) := by
    rw [List.map_map, List.map_map, List.map_cons, List.map_cons]
    refine List.Forall₂.cons (PhonRel_refl _) ?_
    rw [List.forall₂_map_left_iff, List.forall₂_map_right_iff]
    exact hrel.imp (fun a b hab => phonRel_of_samePhoneticClass a b hab)
  have hsim := keepFrom_tail_filter_sim _ _ hF (classByte (asciiToLower c))
    (classByte (asciiToLower c))
    (fun x hx => Or.inl (by simpa using hx)) (fun x hx => Or.inl (by simpa using hx))
    (fun _ => rfl)
  simp only [soundexDigits, List.map_cons, List.headD_cons] at hsim ⊢
  rw [filter_not_drop_eq_digit _ (by simpa using hcl t1 h1),
    filter_not_drop_eq_digit _ (by simpa using hcl t2 h2), hsim]

theorem not_hw_of_digitByte (d : Nat) (h : IsDigitByte d) : ¬ IsHW d := by
  unfold IsDigitByte at h; unfold IsHW; omega

theorem keepFrom_mem_digit (l : List Nat) :
    ∀ a : Nat, (∀ x, l.head? = some x → a = x ∨ IsHW x) →
      ∀ d, IsDigitByte d → d ∈ l → d ∈ keepFrom a l := by
  induction l with
  | nil => intro _ _ d _ hd; exact absurd hd (List.not_mem_nil d)
  | cons x l ih =>
    intro a hinv d hdig hd
    cases l with
    | nil => simpa [keepFrom] using hd
    | cons y rest =>
      have ihn : ∀ e, IsDigitByte e → e ∈ y :: rest →
          e ∈ keepFrom (nextLast a x y rest.head?) (y :: rest) := by
        intro e he hm
        refine ih _ ?_ e he hm
        intro z hz
        have : y = z := by simpa using hz
        rw [← this]; exact nextLast_inv _ _ _ _
      rw [keepFrom_step]
      rcases List.mem_cons.1 hd with hdx | hdt
      · by_cases m : isMarked a x y rest.head?
        · rw [if_pos m]
          have hax : a = x := (hinv x rfl).resolve_right (hdx ▸ not_hw_of_digitByte d hdig)
          apply ihn d hdig
          unfold isMarked at m
          rcases m with m | ⟨_, m⟩
          · rw [hdx, ← hax, ← m]; exact List.mem_cons_self _ _
          · cases rest with
            | nil => exact absurd m (by simp)
            | cons z r =>
              have hz : x = z := by simpa using m
              rw [hdx, hz]
              exact List.mem_cons_of_mem _ (List.mem_cons_self _ _)
        · rw [if_neg m, hdx]; exact List.mem_cons_self _ _
      · have := ihn d hdig hdt
        split_ifs
        · exact this
        · exact List.mem_cons_of_mem _ this

theorem keepFrom_replicate (d n : Nat) : keepFrom d (List.replicate (n + 1) d) = [d] := by
  induction n with
  | zero => simp [keepFrom]
  | succ n ih =>
    rw [List.replicate_succ, List.replicate_succ, keepFrom, if_pos rfl, ← List.replicate_succ]
    exact ih

theorem keepFrom_keeps (pre : List Nat) :
    ∀ (a d : Nat) (post : List Nat),
      (∀ x, (pre ++ d :: post).head? = some x → a = x ∨ IsHW x) →
      IsDigitByte d → post.head? ≠ some d →
      ¬ (∃ y, post.head? = some y ∧ IsHW y ∧ post.tail.head? = some d) →
      ∃ o1 o2, keepFrom a (pre ++ d :: post) = o1 ++ d :: o2
        ∧ o1.Sublist pre ∧ o2.Sublist post := by
  induction pre with
  | nil =>
    intro a d post hinv hdig h1 h2
    cases post with
    | nil => exact ⟨[], [], by simp [keepFrom], List.Sublist.refl _, List.Sublist.refl _⟩
    | cons y rest =>
      have had : a = d := (hinv d rfl).resolve_right (not_hw_of_digitByte d hdig)
      have m : ¬ isMarked a d y rest.head? := by
        unfold isMarked
        rintro (m | ⟨m1, m2⟩)
        · exact h1 (by rw [m, had]; rfl)
        · exact h2 ⟨y, rfl, m1, m2.symm⟩
      refine ⟨[], keepFrom (nextLast a d y rest.head?) (y :: rest), ?_, List.Sublist.refl _,
        keepFrom_sublist _ _⟩
      rw [List.nil_append, keepFrom_step, if_neg m]
      rfl
  | cons p pre ih =>
    intro a d post hinv hdig h1 h2
    cases hp : pre ++ d :: post with
    | nil => exact absurd hp (by simp)
    | cons y rest =>
      have hnext : ∀ x, (pre ++ d :: post).head? = some x →
          nextLast a p y rest.head? = x ∨ IsHW x := by
        intro x hx
        rw [hp] at hx
        have : y = x := by simpa using hx
        rw [← this]; exact nextLast_inv _ _ _ _
      obtain ⟨o1, o2, he, hs1, hs2⟩ := ih (nextLast a p y rest.head?) d post hnext hdig h1 h2
      rw [List.cons_append, hp, keepFrom_step, ← hp, he]
      split_ifs
      · exact ⟨o1, o2, rfl, hs1.cons _, hs2⟩
      · exact ⟨p :: o1, o2, rfl, hs1.cons₂ _, hs2⟩

/-! ## The claims -/

/-- Claim C1, as stated, fails: the name `Muñoz` is valid (non-empty, every
rune a letter under `unicode.IsLetter`), and `Create` returns `Mñ20` for it,
whose second character is not a decimal digit. -/
theorem Create_format_fails_for_non_ascii_letter :
    ValidName lowerLatin1Tables (goString "Muñoz")
      ∧ Create lowerLatin1Tables (goString "Muñoz") = some (goString "Mñ20", none)
      ∧ ¬ WellFormedCode (goString "Muñoz") (goString "Mñ20") := by
  refine ⟨by decide, by decide, ?_⟩
  rintro ⟨c, d1, d2, d3, _, h2, h3, _, _⟩
  have e : decodeRunes (goString "Mñ20") = [0x4D, 0xF1, 0x32, 0x30] := by decide
  rw [e] at h2
  have h1 : d1 = 0xF1 := by injection h2 with _ h; injection h with h _; exact h.symm
  rw [h1] at h3
  exact absurd h3 (by decide)

/-- Claim C1, amended to names of ASCII letters: for every non-empty name
made only of the letters `A-Z`, `a-z`, `Create` returns a nil error and a
code of exactly 4 characters, the first character of the name (case
unchanged) followed by three decimal digits. -/
theorem Create_format_ascii (T : UnicodeTables) (name : GoString) (hne : name ≠ [])
    (h : ∀ b ∈ name, IsAsciiLetter b) :
    ∃ c d1 d2 d3, name.head? = some c ∧ IsDigitByte d1 ∧ IsDigitByte d2 ∧ IsDigitByte d3
      ∧ Create T name = some ([c, d1, d2, d3], none)
      ∧ WellFormedCode name [c, d1, d2, d3] := by
  cases name with
  | nil => exact absurd rfl hne
  | cons c rest =>
    have hlow : ∀ b ∈ (c :: rest).map asciiToLower, 0x61 ≤ b ∧ b ≤ 0x7A := by
      intro b hb
      obtain ⟨a, ha, rfl⟩ := List.mem_map.1 hb
      exact asciiToLower_letter a (h a ha)
    obtain ⟨d1, d2, d3, hd, h1, h2, h3⟩ := soundexDigits_format _ hlow
    have hc : c < 0x80 := by
      have := h c (List.mem_cons_self _ _); unfold IsAsciiLetter at this; omega
    have ha : ∀ b ∈ c :: rest, b < 0x80 := by
      intro b hb; have := h b hb; unfold IsAsciiLetter at this; omega
    have hcode : ∀ b ∈ [c, d1, d2, d3], b < 0x80 := by
      intro b hb
      simp only [List.mem_cons, List.mem_singleton, List.not_mem_nil, or_false] at hb
      rcases hb with rfl | rfl | rfl | rfl <;> omega
    refine ⟨c, d1, d2, d3, rfl, ⟨h1.1, by omega⟩, ⟨h2.1, by omega⟩, ⟨h3.1, by omega⟩, ?_, ?_⟩
    · rw [Create_letters T c rest h, hd]
    · exact ⟨c, d1, d2, d3, by rw [decodeRunes_ascii _ ha]; rfl, decodeRunes_ascii _ hcode,
        ⟨h1.1, by omega⟩, ⟨h2.1, by omega⟩, ⟨h3.1, by omega⟩⟩

/-- Witness for `Create_format_ascii` at the name `McDonald`. -/
theorem Create_format_ascii_witness :
    goString "McDonald" ≠ [] ∧ (∀ b ∈ goString "McDonald", IsAsciiLetter b)
      ∧ ∃ c d1 d2 d3, (goString "McDonald").head? = some c
        ∧ IsDigitByte d1 ∧ IsDigitByte d2 ∧ IsDigitByte d3
        ∧ Create lowerLatin1Tables (goString "McDonald") = some ([c, d1, d2, d3], none)
        ∧ WellFormedCode (goString "McDonald") [c, d1, d2, d3] :=
  ⟨by decide, by decide,
    Create_format_ascii lowerLatin1Tables (goString "McDonald") (by decide) (by decide)⟩

/-- Claim C2, evaluated on the code: for the names `O'Brien`, `Smith3` and
`van der`, each with a character that is not a letter, `makeLower` reports
the error, but `Create` returns a code and a nil error. -/
theorem Create_invalid_name_returns_code (T : UnicodeTables) :
    (makeLower T (goString "O'Brien")).2 = some GoError.nonAlpha
      ∧ Create T (goString "O'Brien") = some (goString "O660", none)
      ∧ (makeLower T (goString "Smith3")).2 = some GoError.nonAlpha
      ∧ Create T (goString "Smith3") = some (goString "S660", none)
      ∧ (makeLower T (goString "van der")).2 = some GoError.nonAlpha
      ∧ Create T (goString "van der") = some (goString "v660", none) := by
  refine ⟨?_, ?_, ?_, ?_, ?_, ?_⟩
  · rw [makeLower_ascii T _ (by decide)]; decide
  · exact (Create_ascii_tables T lowerLatin1Tables _ (by decide)).trans (by decide)
  · rw [makeLower_ascii T _ (by decide)]; decide
  · exact (Create_ascii_tables T lowerLatin1Tables _ (by decide)).trans (by decide)
  · rw [makeLower_ascii T _ (by decide)]; decide
  · exact (Create_ascii_tables T lowerLatin1Tables _ (by decide)).trans (by decide)

/-- Claim C3, evaluated on the code: `Create("")` panics at `rInitial[0]`
and returns nothing, although `makeLower("")` would report the empty-string
error. -/
theorem Create_empty_panics (T : UnicodeTables) :
    Create T (goString "") = none
      ∧ makeLower T (goString "") = (goString "error", some GoError.emptyString) :=
  ⟨rfl, rfl⟩

/-- Claim C4: `Create` returns `R163` for `Robert` and for `Rupert`, `A261`
for `Ashcraft`, `T522` for `Tymczak` and `H555` for `Honeyman`, each with a
nil error. -/
theorem Create_classic_vectors (T : UnicodeTables) :
    Create T (goString "Robert") = some (goString "R163", none)
      ∧ Create T (goString "Rupert") = some (goString "R163", none)
      ∧ Create T (goString "Ashcraft") = some (goString "A261", none)
      ∧ Create T (goString "Tymczak") = some (goString "T522", none)
      ∧ Create T (goString "Honeyman") = some (goString "H555", none) := by
  refine ⟨?_, ?_, ?_, ?_, ?_⟩ <;>
    exact (Create_ascii_tables T lowerLatin1Tables _ (by decide)).trans (by decide)

/-- Claim C5, as stated, fails: `Create("Pfister")` is not `P123`. -/
theorem Create_Pfister_not_P123 :
    Create lowerLatin1Tables (goString "Pfister") ≠ some (goString "P123", none) := by
  decide

/-- Claim C5, amended: `Create("Pfister")` returns `P236` with a nil error
(the `f` has the class of the head letter `P` and is collapsed into it). -/
theorem Create_Pfister (T : UnicodeTables) :
    Create T (goString "Pfister") = some (goString "P236", none) :=
  (Create_ascii_tables T lowerLatin1Tables _ (by decide)).trans (by decide)

/-- Claim C6, evaluated on the code: at the head of a name the bridging rule
is missed. `Bwb` gets the digits `100` while `Bb` gets `000`; where the
consonant before the `h` is not removed up to the head, the rule works
(`Ashcraft` and `Ascraft` both get `261`). -/
theorem Create_bridging_at_head (T : UnicodeTables) :
    Create T (goString "Bwb") = some (goString "B100", none)
      ∧ Create T (goString "Bb") = some (goString "B000", none)
      ∧ Create T (goString "Ashcraft") = some (goString "A261", none)
      ∧ Create T (goString "Ascraft") = some (goString "A261", none) := by
  refine ⟨?_, ?_, ?_, ?_⟩ <;>
    exact (Create_ascii_tables T lowerLatin1Tables _ (by decide)).trans (by decide)

/-- Claim C7: for every name of ASCII letters in which every letter after
the first is a drop letter (`a e i o u y h w`, in either case), `Create`
returns the first character followed by `000`, with a nil error. -/
theorem Create_padding (T : UnicodeTables) (c : Nat) (rest : GoString)
    (hc : IsAsciiLetter c)
    (hrest : ∀ b ∈ rest, IsAsciiLetter b ∧ asciiToLower b ∈ dropBytes) :
    Create T (c :: rest) = some (c :: goString "000", none) := by
  have h : ∀ b ∈ c :: rest, IsAsciiLetter b := by
    intro b hb
    rcases List.mem_cons.1 hb with rfl | hb
    · exact hc
    · exact (hrest b hb).1
  rw [Create_letters T c rest h, List.map_cons, soundexDigits_all_dropped]
  · rfl
  · intro b hb
    obtain ⟨a, ha, rfl⟩ := List.mem_map.1 hb
    exact (hrest a ha).2

/-- Witness for `Create_padding` at `Lee`, with its result `L000`, and at the
one-letter name `A`, with its result `A000`. -/
theorem Create_padding_witness :
    IsAsciiLetter 0x4C
      ∧ (∀ b ∈ goString "ee", IsAsciiLetter b ∧ asciiToLower b ∈ dropBytes)
      ∧ Create lowerLatin1Tables (goString "Lee") = some (goString "L000", none)
      ∧ Create lowerLatin1Tables (goString "A") = some (goString "A000", none) :=
  ⟨by decide, by decide,
    Create_padding lowerLatin1Tables 0x4C (goString "ee") (by decide) (by decide),
    Create_padding lowerLatin1Tables 0x41 [] (by decide) (by simp)⟩

/-- Claim C8: the seven class tables partition the alphabet. Each of the 26
lower-case letters occurs exactly once in the seven lists taken together,
every entry of the lists is one of the 26 letters, and the lists are the
classes Drop, 1, 2, 3, 4, 5, 6 of the specification. -/
theorem class_tables_partition :
    (lowerCaseLetters.map fun c => (classTables.map fun t => t.count (encodeRune c)).sum)
        = List.replicate 26 1
      ∧ (classTables.map List.length).sum = 26
      ∧ classTables = specClassTable.map fun cls => cls.map fun c => encodeRune c.toNat := by
  decide

/-- Claim C9, evaluated on the code: `removeDup` can remove the head. On
`1h1`, the classification of `bhb`, it returns `h1`, whose first character is
not the `1` that stood at index 0; `removeFirstNumber` then discards the `h`
and the head letter's own digit stays in the code (`Create("Bhb")` is `B100`). -/
theorem removeDup_drops_head (T : UnicodeTables) :
    convertToNumber (goString "bhb") = (goString "1h1", none)
      ∧ removeDup (goString "1h1") = some (goString "h1", none)
      ∧ removeFirstNumber (goString "h1") = some (goString "1", none)
      ∧ Create T (goString "Bhb") = some (goString "B100", none) :=
  ⟨by decide, by decide, by decide,
    (Create_ascii_tables T lowerLatin1Tables _ (by decide)).trans (by decide)⟩

/-- Claim C10: for every string over the classifier's output alphabet (the
digits `1..6` and the drop letters), whatever `removeDup` returns has no two
adjacent equal digit characters and is the input with characters deleted,
and the digits are collapsed, not lost: every digit that occurs in the input
occurs in the result, and a digit of the input stays in its place unless the
same digit follows it, directly or after one `h` or `w`. `removeDup` does
return, with a nil error, when the string is not empty, and a run of one
digit alone is returned as that single digit. -/
theorem removeDup_no_adjacent_equal_digits (s : GoString) (h : ∀ b ∈ s, IsClassified b) :
    (∀ out err, removeDup s = some (out, err) →
        NoAdjacentEqualDigits out ∧ out.Sublist s
          ∧ (∀ d, IsDigitByte d → d ∈ s → d ∈ out)
          ∧ (∀ pre d post, s = pre ++ d :: post → IsDigitByte d → post.head? ≠ some d →
              ¬ (∃ y, post.head? = some y ∧ IsHW y ∧ post.tail.head? = some d) →
              ∃ o1 o2, out = o1 ++ d :: o2 ∧ o1.Sublist pre ∧ o2.Sublist post))
      ∧ (s ≠ [] → ∃ out, removeDup s = some (out, none))
      ∧ (∀ d n, IsDigitByte d → removeDup (List.replicate (n + 1) d) = some ([d], none)) := by
  have hrun : ∀ d n, IsDigitByte d → removeDup (List.replicate (n + 1) d) = some ([d], none) := by
    intro d n hd
    have hb : ∀ b ∈ d :: List.replicate n d, b < 0x80 ∧ b ≠ 0x3F := by
      intro b hb
      rw [← List.replicate_succ] at hb
      have hbd : b = d := List.eq_of_mem_replicate hb
      unfold IsDigitByte at hd
      omega
    rw [List.replicate_succ, removeDup_ascii d _ (fun b hb' => (hb b hb').1)
      (fun b hb' => (hb b hb').2), ← List.replicate_succ, keepFrom_replicate]
  cases s with
  | nil => exact ⟨fun out err he => by simp [removeDup, decodeRunes, decodeRunesAux] at he,
      fun hne => absurd rfl hne, hrun⟩
  | cons x rest =>
    have hr := removeDup_ascii x rest (fun b hb => (isClassified_bounds b (h b hb)).1)
      (fun b hb => (isClassified_bounds b (h b hb)).2)
    refine ⟨?_, fun _ => ⟨_, hr⟩, hrun⟩
    intro out err he
    rw [hr] at he
    have ho : keepFrom x (x :: rest) = out := by
      injection he with he; injection he
    rw [← ho]
    refine ⟨keepFrom_chain (x :: rest) x (fun z hz => Or.inl (by simpa using hz)),
      keepFrom_sublist _ _,
      keepFrom_mem_digit (x :: rest) x (fun z hz => Or.inl (by simpa using hz)), ?_⟩
    intro pre d post hs hd h1 h2
    rw [hs]
    refine keepFrom_keeps pre x d post ?_ hd h1 h2
    intro z hz
    rw [← hs] at hz
    exact Or.inl (by simpa using hz)

/-- Witness for `removeDup_no_adjacent_equal_digits` at `a22h2611`, where
`removeDup` returns `ah261`: the digits `2`, `6` and `1` of the input all
occur in the result. -/
theorem removeDup_no_adjacent_equal_digits_witness :
    (∀ b ∈ goString "a22h2611", IsClassified b)
      ∧ removeDup (goString "a22h2611") = some (goString "ah261", none)
      ∧ NoAdjacentEqualDigits (goString "ah261")
      ∧ (∀ d, IsDigitByte d → d ∈ goString "a22h2611" → d ∈ goString "ah261")
      ∧ removeDup (goString "222") = some (goString "2", none) := by
  have hc : ∀ b ∈ goString "a22h2611", IsClassified b := by decide
  have hr : removeDup (goString "a22h2611") = some (goString "ah261", none) := by decide
  have hall := removeDup_no_adjacent_equal_digits (goString "a22h2611") hc
  obtain ⟨h1, _, h3, _⟩ := hall.1 _ _ hr
  exact ⟨hc, hr, h1, h3, hall.2.2 0x32 2 (by decide)⟩

/-- Claim C11: after validation no stage fails. `removeDup` returns a
non-empty string on every non-empty input without `'?'`, `removeFirstNumber`
returns on every non-empty string, `stripPad` returns on every string, and for
every valid name (non-empty, all letters) every stage of `Create` returns
with a nil error and `Create` returns a code. The lower-case table of the
standard library is assumed never to map a rune above U+007F to `'?'`. -/
theorem stages_after_validation_never_fail (T : UnicodeTables)
    (hT : ∀ r, 0x7F < r → T.lowerCase r ≠ 0x3F) (name : GoString) (hv : ValidName T name) :
    (∀ s : GoString, s ≠ [] → (∀ b ∈ s, b ≠ 0x3F) →
        ∃ out, out ≠ [] ∧ removeDup s = some (out, none))
      ∧ (∀ s : GoString, s ≠ [] → ∃ rest, removeFirstNumber s = some (rest, none))
      ∧ (∀ s : GoString, ∃ out, stripPad s = some (out, none))
      ∧ ∃ rInit low conv dedup rest digits,
          (decodeRunes name).head? = some rInit
            ∧ makeLower T name = (low, none)
            ∧ convertToNumber low = (conv, none)
            ∧ removeDup conv = some (dedup, none) ∧ dedup ≠ []
            ∧ removeFirstNumber dedup = some (rest, none)
            ∧ stripPad (removeDroppedLetters rest).1 = some (digits, none)
            ∧ Create T name = some (encodeRune rInit ++ digits, none) := by
  refine ⟨removeDup_nonempty, ?_, stripPad_total, pipeline_of_valid T hT name hv⟩
  intro s hs
  cases s with
  | nil => exact absurd rfl hs
  | cons b rest => exact ⟨rest, rfl⟩

/-- Witness for `stages_after_validation_never_fail` at the valid name
`Muñoz`, which has a letter outside ASCII. -/
theorem stages_after_validation_never_fail_witness :
    (∀ r, 0x7F < r → lowerLatin1Tables.lowerCase r ≠ 0x3F)
      ∧ ValidName lowerLatin1Tables (goString "Muñoz")
      ∧ ∃ code, Create lowerLatin1Tables (goString "Muñoz") = some (code, none) := by
  have hT : ∀ r, 0x7F < r → lowerLatin1Tables.lowerCase r ≠ 0x3F := by
    intro r hr h
    have h1 : @Eq Nat r 0x3F := h
    have h2 : @LT.lt Nat _ 0x7F r := hr
    omega
  have hv : ValidName lowerLatin1Tables (goString "Muñoz") := by decide
  obtain ⟨_, _, _, rInit, _, _, _, _, digits, _, _, _, _, _, _, _, h⟩ :=
    stages_after_validation_never_fail lowerLatin1Tables hT (goString "Muñoz") hv
  exact ⟨hT, hv, _, h⟩

/-- Claim C12: `makeLower` returns an error exactly when the name is empty or
has a rune that is not a letter; otherwise it returns a nil error and the
string of the lower-case forms of the runes of the name, in order, which has
as many characters as the name. `makeLower("Joel")` is `joel`. -/
theorem makeLower_spec (T : UnicodeTables) (name : GoString) :
    ((makeLower T name).2 ≠ none
        ↔ (name = [] ∨ ∃ r ∈ decodeRunes name, unicodeIsLetter T r = false))
      ∧ ((makeLower T name).2 = none →
          (makeLower T name).1 = encodeRunes ((decodeRunes name).map (unicodeToLower T))
            ∧ runeCountInString (makeLower T name).1 = runeCountInString name)
      ∧ makeLower T (goString "Joel") = (goString "joel", none) := by
  refine ⟨makeLower_error_iff T name, ?_, ?_⟩
  · intro h
    have hv : ValidName T name := by
      have hn := (not_congr (makeLower_error_iff T name)).1 (by simpa using h)
      simp only [not_or, not_exists, not_and, Bool.not_eq_false] at hn
      exact ⟨hn.1, hn.2⟩
    rw [makeLower_valid T name hv]
    refine ⟨rfl, ?_⟩
    simp only [runeCountInString, decodeRunes_encodeRunes, List.length_map]
  · rw [makeLower_ascii T _ (by decide)]; decide

/-- Witness for `makeLower_spec` at the name `Joel`: no error, and the result
has the 4 characters of `joel`. -/
theorem makeLower_spec_witness :
    (makeLower lowerLatin1Tables (goString "Joel")).2 = none
      ∧ (makeLower lowerLatin1Tables (goString "Joel")).1
          = encodeRunes ((decodeRunes (goString "Joel")).map (unicodeToLower lowerLatin1Tables))
      ∧ runeCountInString (makeLower lowerLatin1Tables (goString "Joel")).1
          = runeCountInString (goString "Joel") :=
  ⟨by decide, (makeLower_spec lowerLatin1Tables (goString "Joel")).2.1 (by decide)⟩

/-- Claim C13: for every string of decimal digits `stripPad` returns, with a
nil error, the first 3 characters of the string followed by `000`: exactly 3
characters, `000` for the empty string, the string right-padded with `0`
when it has 1 or 2 digits, the string itself when it has 3, and its first 3
digits when it has more. -/
theorem stripPad_digits (s : GoString) (h : ∀ b ∈ s, IsDigitByte b) :
    ∃ out, stripPad s = some (out, none)
      ∧ out = (s ++ goString "000").take 3
      ∧ out.length = 3
      ∧ (s = [] → out = goString "000")
      ∧ (s.length < 3 → out = s ++ List.replicate (3 - s.length) 0x30)
      ∧ (s.length = 3 → out = s)
      ∧ (3 < s.length → out = s.take 3) := by
  have ha : ∀ b ∈ s, b < 0x80 := by
    intro b hb; have := h b hb; unfold IsDigitByte at this; omega
  have e : goString "000" = [0x30, 0x30, 0x30] := by decide
  refine ⟨_, stripPad_ascii s ha, by rw [e], ?_, ?_, ?_, ?_, ?_⟩
  · simp
  · intro hs; rw [hs, e]; rfl
  · intro hs
    match s, hs with
    | [], _ => rfl
    | [_], _ => rfl
    | [_, _], _ => rfl
    | _ :: _ :: _ :: _, hs => simp only [List.length_cons] at hs; omega
  · intro hs
    match s, hs with
    | [_, _, _], _ => rfl
  · intro hs
    match s, hs with
    | _ :: _ :: _ :: _ :: _, _ => simp

/-- Witness for `stripPad_digits` at the strings `5` and `2613`. -/
theorem stripPad_digits_witness :
    (∀ b ∈ goString "5", IsDigitByte b) ∧ (∀ b ∈ goString "2613", IsDigitByte b)
      ∧ stripPad (goString "5") = some (goString "500", none)
      ∧ stripPad (goString "2613") = some (goString "261", none) := by
  have h1 : ∀ b ∈ goString "5", IsDigitByte b := by decide
  have h2 : ∀ b ∈ goString "2613", IsDigitByte b := by decide
  obtain ⟨o1, ho1, he1, _⟩ := stripPad_digits (goString "5") h1
  obtain ⟨o2, ho2, he2, _⟩ := stripPad_digits (goString "2613") h2
  refine ⟨h1, h2, ?_, ?_⟩
  · rw [ho1, he1]; decide
  · rw [ho2, he2]; decide

/-- Claim C14: for every input string `convertToNumber` returns a nil error
and a string with exactly one character per input character, in the same
order: the character `specConvertRune` assigns (`b f p v` to `1`,
`c g j k q s x z` to `2`, `d t` to `3`, `l` to `4`, `m n` to `5`, `r` to `6`,
any other character unchanged). -/
theorem convertToNumber_spec (name : GoString) :
    (convertToNumber name).2 = none
      ∧ (convertToNumber name).1 = encodeRunes ((decodeRunes name).map specConvertRune)
      ∧ decodeRunes (convertToNumber name).1 = (decodeRunes name).map specConvertRune
      ∧ runeCountInString (convertToNumber name).1 = runeCountInString name := by
  have hs : specConvertRune = classByte := funext specConvertRune_eq
  rw [hs]
  refine ⟨rfl, by rw [convertToNumber_eq], decodeRunes_convertToNumber name, ?_⟩
  simp only [runeCountInString, decodeRunes_convertToNumber, List.length_map]

/-- Claim C15: `removeDroppedLetters` is an order-preserving filter. For
every string without `'?'` it returns a nil error and the characters of the
input other than `a e i o u y h w`, in their order; on a string of digits
`1..6` and drop letters the result is the digits of the input, in order. -/
theorem removeDroppedLetters_spec (name : GoString) (hq : ∀ b ∈ name, b ≠ 0x3F) :
    removeDroppedLetters name
        = (encodeRunes ((decodeRunes name).filter (fun r => decide (r ∉ dropBytes))), none)
      ∧ decodeRunes (removeDroppedLetters name).1
          = (decodeRunes name).filter (fun r => decide (r ∉ dropBytes))
      ∧ ((∀ b ∈ name, IsClassified b) →
          (removeDroppedLetters name).1 = name.filter (fun b => decide (0x31 ≤ b ∧ b ≤ 0x36))
            ∧ ∀ b ∈ (removeDroppedLetters name).1, IsDigitByte b) := by
  have hrq := decodeRunes_no_question name.length name (Nat.le_refl _) hq
  have heq := removeDroppedLetters_eq name hrq
  refine ⟨heq, ?_, ?_⟩
  · rw [heq, decodeRunes_encodeRunes]
    conv_rhs => rw [← List.map_id (List.filter _ _)]
    apply List.map_congr_left
    intro r hr
    exact decodeRunes_mem_valid _ name (Nat.le_refl _) r (List.mem_of_mem_filter hr)
  · intro hc
    have ha : ∀ b ∈ name, b < 0x80 := fun b hb => (isClassified_bounds b (hc b hb)).1
    have hf : name.filter (fun b => decide (b ∉ dropBytes))
        = name.filter (fun b => decide (0x31 ≤ b ∧ b ≤ 0x36)) := by
      apply List.filter_congr
      intro b hb
      rw [decide_eq_decide]
      exact classified_not_drop_iff b (hc b hb)
    rw [removeDroppedLetters_ascii name ha hq, hf]
    refine ⟨rfl, ?_⟩
    intro b hb
    have := (List.mem_filter.1 hb).2
    rw [decide_eq_true_eq] at this
    unfold IsDigitByte
    omega

/-- Witness for `removeDroppedLetters_spec` at `h26a13`, with result `2613`. -/
theorem removeDroppedLetters_spec_witness :
    (∀ b ∈ goString "h26a13", b ≠ 0x3F) ∧ (∀ b ∈ goString "h26a13", IsClassified b)
      ∧ (removeDroppedLetters (goString "h26a13")).1 = goString "2613" := by
  have hq : ∀ b ∈ goString "h26a13", b ≠ 0x3F := by decide
  have hc : ∀ b ∈ goString "h26a13", IsClassified b := by decide
  refine ⟨hq, hc, ?_⟩
  rw [((removeDroppedLetters_spec (goString "h26a13") hq).2.2 hc).1]
  decide

/-- Claim C16: for every non-empty name of ASCII letters `Create` returns a
nil error and a code of exactly 4 bytes: the first byte of the name
unchanged, then three characters in `'0'..'6'` in which a `'0'` is never
followed by a non-zero digit (the zeros are padding at the end). -/
theorem Create_code_shape (T : UnicodeTables) (name : GoString) (hne : name ≠ [])
    (h : ∀ b ∈ name, IsAsciiLetter b) :
    ∃ c d1 d2 d3, name.head? = some c
      ∧ Create T name = some ([c, d1, d2, d3], none)
      ∧ (0x30 ≤ d1 ∧ d1 ≤ 0x36) ∧ (0x30 ≤ d2 ∧ d2 ≤ 0x36) ∧ (0x30 ≤ d3 ∧ d3 ≤ 0x36)
      ∧ (d1 = 0x30 → d2 = 0x30) ∧ (d2 = 0x30 → d3 = 0x30) := by
  cases name with
  | nil => exact absurd rfl hne
  | cons c rest =>
    have hlow : ∀ b ∈ (c :: rest).map asciiToLower, 0x61 ≤ b ∧ b ≤ 0x7A := by
      intro b hb
      obtain ⟨a, ha, rfl⟩ := List.mem_map.1 hb
      exact asciiToLower_letter a (h a ha)
    obtain ⟨d1, d2, d3, hd, h1, h2, h3, h4, h5⟩ := soundexDigits_shape _ hlow
    exact ⟨c, d1, d2, d3, rfl, by rw [Create_letters T c rest h, hd], h1, h2, h3, h4, h5⟩

/-- Witness for `Create_code_shape` at the name `Lee`, whose code is `L000`. -/
theorem Create_code_shape_witness :
    goString "Lee" ≠ [] ∧ (∀ b ∈ goString "Lee", IsAsciiLetter b)
      ∧ ∃ c d1 d2 d3, (goString "Lee").head? = some c
        ∧ Create lowerLatin1Tables (goString "Lee") = some ([c, d1, d2, d3], none)
        ∧ (0x30 ≤ d1 ∧ d1 ≤ 0x36) ∧ (0x30 ≤ d2 ∧ d2 ≤ 0x36) ∧ (0x30 ≤ d3 ∧ d3 ≤ 0x36)
        ∧ (d1 = 0x30 → d2 = 0x30) ∧ (d2 = 0x30 → d3 = 0x30) :=
  ⟨by decide, by decide,
    Create_code_shape lowerLatin1Tables (goString "Lee") (by decide) (by decide)⟩

/-- Claim C17: for every non-empty name with a rune that is not a letter,
`Create` goes on with the placeholder `error` of `makeLower` and returns the
first character of the name followed by `660`, with a nil error
(`Create("O'Brien")` is `O660`); and whenever `Create` returns, its error is
nil. -/
theorem Create_invalid_name (T : UnicodeTables) (name : GoString) (hne : name ≠ [])
    (hbad : ∃ r ∈ decodeRunes name, unicodeIsLetter T r = false) :
    (∃ rInit, (decodeRunes name).head? = some rInit
        ∧ (makeLower T name) = (goString "error", some GoError.nonAlpha)
        ∧ Create T name = some (encodeRune rInit ++ goString "660", none))
      ∧ (∀ (other code : GoString) (err : Option GoError),
          Create T other = some (code, err) → err = none) := by
  refine ⟨?_, fun other code err h => Create_error_nil T other code err h⟩
  cases hr : decodeRunes name with
  | nil => exact absurd hr (decodeRunes_ne_nil name hne)
  | cons rInit rs =>
    have hm := makeLower_invalid T name hne hbad
    exact ⟨rInit, rfl, hm, Create_of_makeLower_error T name rInit rs hr _ hm⟩

/-- Witness for `Create_invalid_name` at `O'Brien`, whose code is `O660`. -/
theorem Create_invalid_name_witness :
    goString "O'Brien" ≠ []
      ∧ (∃ r ∈ decodeRunes (goString "O'Brien"), unicodeIsLetter lowerLatin1Tables r = false)
      ∧ Create lowerLatin1Tables (goString "O'Brien") = some (goString "O660", none) := by
  have hne : goString "O'Brien" ≠ [] := by decide
  have hbad : ∃ r ∈ decodeRunes (goString "O'Brien"),
      unicodeIsLetter lowerLatin1Tables r = false := ⟨0x27, by decide, by decide⟩
  obtain ⟨⟨rInit, h1, _, h3⟩, _⟩ :=
    Create_invalid_name lowerLatin1Tables (goString "O'Brien") hne hbad
  refine ⟨hne, hbad, ?_⟩
  have e : (decodeRunes (goString "O'Brien")).head? = some 0x4F := by decide
  rw [e] at h1
  injection h1 with h1
  rw [h3, ← h1]
  decide

/-- Claim C18: two names of ASCII letters with the same first character, the
same length and, at every later position, two letters of the same digit
class `1..6`, or two vowels from `a e i o u y`, or the same letter `h` or `w`
(letters taken in either case) get the same code from `Create`, with a nil
error. -/
theorem Create_phonetic_equivalence (T : UnicodeTables) (c : Nat) (t1 t2 : GoString)
    (h1 : ∀ b ∈ c :: t1, IsAsciiLetter b) (h2 : ∀ b ∈ c :: t2, IsAsciiLetter b)
    (hrel : List.Forall₂ SamePhoneticClass t1 t2) :
    ∃ code, Create T (c :: t1) = some (code, none) ∧ Create T (c :: t2) = some (code, none) := by
  refine ⟨_, Create_letters T c t1 h1, ?_⟩
  rw [Create_letters T c t2 h2,
    soundexDigits_eq_of_related c t1 t2 (fun b hb => asciiToLower_letter b (h1 b hb))
      (fun b hb => asciiToLower_letter b (h2 b hb)) hrel]

/-- Witness for `Create_phonetic_equivalence` at `Robert` and `Rupert`, which
both get `R163`. -/
theorem Create_phonetic_equivalence_witness :
    (∀ b ∈ goString "Robert", IsAsciiLetter b) ∧ (∀ b ∈ goString "Rupert", IsAsciiLetter b)
      ∧ List.Forall₂ SamePhoneticClass (goString "obert") (goString "upert")
      ∧ Create lowerLatin1Tables (goString "Robert") = some (goString "R163", none)
      ∧ ∃ code, Create lowerLatin1Tables (goString "Robert") = some (code, none)
          ∧ Create lowerLatin1Tables (goString "Rupert") = some (code, none) := by
  have hrel : List.Forall₂ SamePhoneticClass (goString "obert") (goString "upert") := by
    have e1 : goString "obert" = [111, 98, 101, 114, 116] := by decide
    have e2 : goString "upert" = [117, 112, 101, 114, 116] := by decide
    rw [e1, e2]
    refine List.Forall₂.cons (by decide) (List.Forall₂.cons (by decide) (List.Forall₂.cons
      (by decide) (List.Forall₂.cons (by decide) (List.Forall₂.cons (by decide)
      List.Forall₂.nil))))
  exact ⟨by decide, by decide, hrel, by decide,
    Create_phonetic_equivalence lowerLatin1Tables 0x52 (goString "obert") (goString "upert")
      (by decide) (by decide) hrel⟩

/-- Claim C19: for every non-empty name of ASCII letters, the three digits of
`Create(name)` are those of `Create` of the lower-cased name and of the
upper-cased name; only the head character follows the case of the input. -/
theorem Create_digits_case_insensitive (T : UnicodeTables) (c : Nat) (rest : GoString)
    (h : ∀ b ∈ c :: rest, IsAsciiLetter b) :
    ∃ d1 d2 d3,
      Create T (c :: rest) = some ([c, d1, d2, d3], none)
        ∧ stringsToLower T (c :: rest) = (c :: rest).map asciiToLower
        ∧ Create T ((c :: rest).map asciiToLower) = some ([asciiToLower c, d1, d2, d3], none)
        ∧ Create T ((c :: rest).map asciiToUpper) = some ([asciiToUpper c, d1, d2, d3], none) := by
  have hlow : ∀ b ∈ (c :: rest).map asciiToLower, 0x61 ≤ b ∧ b ≤ 0x7A := by
    intro b hb
    obtain ⟨a, ha, rfl⟩ := List.mem_map.1 hb
    exact asciiToLower_letter a (h a ha)
  obtain ⟨d1, d2, d3, hd, _⟩ := soundexDigits_format _ hlow
  have hL : ∀ b ∈ asciiToLower c :: rest.map asciiToLower, IsAsciiLetter b := by
    intro b hb
    rw [← List.map_cons] at hb
    obtain ⟨a, ha, rfl⟩ := List.mem_map.1 hb
    exact asciiToLower_isLetter a (h a ha)
  have hU : ∀ b ∈ asciiToUpper c :: rest.map asciiToUpper, IsAsciiLetter b := by
    intro b hb
    rw [← List.map_cons] at hb
    obtain ⟨a, ha, rfl⟩ := List.mem_map.1 hb
    exact asciiToUpper_isLetter a (h a ha)
  have eL : (asciiToLower c :: rest.map asciiToLower).map asciiToLower
      = (c :: rest).map asciiToLower := by
    rw [← List.map_cons, List.map_map]
    exact List.map_congr_left (fun b _ => asciiToLower_idem b)
  have eU : (asciiToUpper c :: rest.map asciiToUpper).map asciiToLower
      = (c :: rest).map asciiToLower := by
    rw [← List.map_cons, List.map_map]
    exact List.map_congr_left (fun b _ => asciiToLower_upper b)
  have ha : (c :: rest).all (fun b => decide (b < 0x80)) = true := by
    rw [List.all_eq_true]
    intro b hb
    have := h b hb
    unfold IsAsciiLetter at this
    rw [decide_eq_true_eq]; omega
  refine ⟨d1, d2, d3, ?_, ?_, ?_, ?_⟩
  · rw [Create_letters T c rest h, hd]
  · rw [stringsToLower, if_pos ha]
  · rw [List.map_cons, Create_letters T _ _ hL, eL, hd]
  · rw [List.map_cons, Create_letters T _ _ hU, eU, hd]

/-- Witness for `Create_digits_case_insensitive` at `McDonald`, with the
digits `235`. -/
theorem Create_digits_case_insensitive_witness :
    (∀ b ∈ goString "McDonald", IsAsciiLetter b)
      ∧ Create lowerLatin1Tables (goString "McDonald") = some (goString "M235", none)
      ∧ Create lowerLatin1Tables (goString "mcdonald") = some (goString "m235", none)
      ∧ Create lowerLatin1Tables (goString "MCDONALD") = some (goString "M235", none)
      ∧ ∃ d1 d2 d3,
          Create lowerLatin1Tables (goString "McDonald") = some ([0x4D, d1, d2, d3], none)
            ∧ stringsToLower lowerLatin1Tables (goString "McDonald")
                = (goString "McDonald").map asciiToLower
            ∧ Create lowerLatin1Tables ((goString "McDonald").map asciiToLower)
                = some ([asciiToLower 0x4D, d1, d2, d3], none)
            ∧ Create lowerLatin1Tables ((goString "McDonald").map asciiToUpper)
                = some ([asciiToUpper 0x4D, d1, d2, d3], none) :=
  ⟨by decide, by decide, by decide, by decide,
    Create_digits_case_insensitive lowerLatin1Tables 0x4D (goString "cDonald") (by decide)⟩

end Gonamedex
